import Mathlib

/-!
Verification development for a Go implementation of Shamir's Secret Sharing
over GF(2^8).  The byte-level functions of the repository (polynomial
generation, Horner evaluation, Lagrange interpolation, the split and combine
entry points and their parallel variants) are embedded shallowly as Lean
functions on `Nat` (bytes are naturals below 256, byte slices are
`List Nat`, the random source is a finite stream of byte-or-error values).
The field arithmetic itself is not part of the repository sources; it is
modelled from the specification of GF(2^8).
-/

namespace SSS

/-- Modelled from the spec: the GF(2^8) "multiply by the monomial x" step,
a left shift followed by reduction modulo the fixed irreducible polynomial
x^8 + x^4 + x^3 + x + 1 (0x11b).  The field operations `mul`, `inv` and
`div` are absent from the repository sources (only their callers appear),
so they are modelled from the specification. -/
def xtime (a : Nat) : Nat :=
  if 256 ≤ a * 2 then a * 2 ^^^ 0x11b else a * 2

/-- Modelled from the spec: carry-less (polynomial) multiplication with
interleaved reduction modulo 0x11b.  The 8 bits of `b` are processed from
the most significant position down; `fuel` is the next bit position. -/
def mulAux : Nat → Nat → Nat → Nat → Nat
  | 0, _, _, acc => acc
  | fuel + 1, a, b, acc =>
      mulAux fuel a b (xtime acc ^^^ (if b / 2 ^ fuel % 2 = 1 then a else 0))

/-- Modelled from the spec: GF(2^8) multiplication. -/
def mul (a b : Nat) : Nat := mulAux 8 a b 0

/-- Modelled from the spec: the table of multiplicative inverses of GF(2^8),
packed little-endian into one natural number (entry a is byte a of the
number).  Entry 0 is 0; every other entry is certified to be the genuine
inverse by `inv_cancel` below. -/
def invTable : Nat := 3566776863222250792575350504665046155069508327501453217101429430621730038043584053371660509702620055860081156466022285956586373576971909210171343659649552507176508005971567067637526818336653057460235767741581454534757369738530565771380035673162616129401273381134793422969875859516904113580246491480877823305346558232134899738800022074717406919707935282309554844169982325935665249148669134080917255765422589041374844979786301241750162074905253618853420688398165348773793897399659421930346683507413494886767272566548764049417490863269423193139537759588741825434151586758978267398985919305201935175793127681620251050240

/-- Modelled from the spec: the multiplicative inverse, looked up from the
precomputed table (the spec explicitly allows precomputed tables).
`inv 0 = 0`; valid callers never invert 0. -/
def inv (a : Nat) : Nat := invTable / 256 ^ a % 256

/-- Modelled from the spec: GF(2^8) division, `div(a,b) = mul(a, inverse(b))`.
Division by zero is a contract violation for the callers modelled here; the
model returns `mul a 0 = 0` in that unreachable case. -/
def div (a b : Nat) : Nat := mul a (inv b)

/-- Field exponentiation, used to state the Horner-evaluation claim. -/
def pow (a : Nat) : Nat → Nat
  | 0 => 1
  | n + 1 => mul (pow a n) a

/-! Structural facts about the field primitives.  All auxiliary lemmas are
stated as `def`s producing proofs; the claim theorems appear at the end of
the file. -/

def xor_lt256 {a b : Nat} (ha : a < 256) (hb : b < 256) : a ^^^ b < 256 :=
  Nat.xor_lt_two_pow (n := 8) ha hb

def xor_left_comm (a b c : Nat) : a ^^^ (b ^^^ c) = b ^^^ (a ^^^ c) := by
  rw [← Nat.xor_assoc, Nat.xor_comm a b, Nat.xor_assoc]

set_option maxRecDepth 4096 in
def xtime_lt : ∀ a < 256, xtime a < 256 := by decide

def mul_two_xor (a b : Nat) : (a ^^^ b) * 2 = a * 2 ^^^ b * 2 := by
  have h2 : ∀ x : Nat, x * 2 = x <<< 1 := by
    intro x; rw [Nat.shiftLeft_eq, Nat.pow_one]
  rw [h2, h2, h2]
  apply Nat.eq_of_testBit_eq
  intro j
  rw [Nat.testBit_xor, Nat.testBit_shiftLeft, Nat.testBit_shiftLeft,
    Nat.testBit_shiftLeft, Nat.testBit_xor, Bool.and_xor_distrib_left]

set_option maxRecDepth 4096 in
def xtime_eq : ∀ a < 256,
    xtime a = a * 2 ^^^ (if a.testBit 7 = true then 283 else 0) := by decide

def xtime_xor : ∀ a < 256, ∀ b < 256,
    xtime (a ^^^ b) = xtime a ^^^ xtime b := by
  intro a ha b hb
  have hab : a ^^^ b < 256 := xor_lt256 ha hb
  rw [xtime_eq a ha, xtime_eq b hb, xtime_eq (a ^^^ b) hab, Nat.testBit_xor,
    mul_two_xor]
  have hsplit : ∀ x y : Bool,
      (if (x ^^ y) = true then 283 else 0) =
        ((if x = true then 283 else 0) ^^^ (if y = true then 283 else 0) : Nat) := by
    decide
  rw [hsplit]
  generalize (if a.testBit 7 = true then (283 : Nat) else 0) = u
  generalize (if b.testBit 7 = true then (283 : Nat) else 0) = v
  rw [Nat.xor_assoc, Nat.xor_assoc]
  exact congrArg (fun t => a * 2 ^^^ t) (xor_left_comm (b * 2) u v)

def xtime_zero : xtime 0 = 0 := by decide

def xtIter_lt : ∀ n, ∀ a < 256, xtime^[n] a < 256 := by
  intro n
  induction n with
  | zero => intro a ha; simpa using ha
  | succ n ih =>
      intro a ha
      rw [Function.iterate_succ_apply]
      exact ih (xtime a) (xtime_lt a ha)

def xtIter_zero : ∀ n, xtime^[n] 0 = 0 := by
  intro n
  induction n with
  | zero => rfl
  | succ n ih => rw [Function.iterate_succ_apply, xtime_zero, ih]

def xtIter_xor : ∀ n, ∀ a < 256, ∀ b < 256,
    xtime^[n] (a ^^^ b) = xtime^[n] a ^^^ xtime^[n] b := by
  intro n
  induction n with
  | zero => intro a _ b _; rfl
  | succ n ih =>
      intro a ha b hb
      rw [Function.iterate_succ_apply, Function.iterate_succ_apply,
        Function.iterate_succ_apply, xtime_xor a ha b hb]
      exact ih (xtime a) (xtime_lt a ha) (xtime b) (xtime_lt b hb)

def tau_lt {a : Nat} (ha : a < 256) (c : Prop) [Decidable c] :
    (if c then a else 0) < 256 := by
  by_cases h : c
  · rwa [if_pos h]
  · rw [if_neg h]; omega

def tau_testBit (a b n : Nat) :
    (if b / 2 ^ n % 2 = 1 then a else 0) = (if b.testBit n = true then a else 0) := by
  by_cases h : b / 2 ^ n % 2 = 1
  · rw [if_pos h, if_pos (by rw [Nat.testBit_to_div_mod]; simpa using h)]
  · rw [if_neg h, if_neg (by rw [Nat.testBit_to_div_mod]; simpa using h)]

def tau_split (a : Nat) (x y : Bool) :
    (if (x ^^ y) = true then a else 0) =
      ((if x = true then a else 0) ^^^ (if y = true then a else 0) : Nat) := by
  cases x <;> cases y <;> simp

def mulAux_acc : ∀ n, ∀ a < 256, ∀ b : Nat, ∀ acc < 256,
    mulAux n a b acc = xtime^[n] acc ^^^ mulAux n a b 0 := by
  intro n
  induction n with
  | zero => intro a _ b acc _; simp [mulAux]
  | succ n ih =>
      intro a ha b acc hacc
      have hτ : (if b / 2 ^ n % 2 = 1 then a else 0) < 256 := tau_lt ha _
      have hx : xtime acc < 256 := xtime_lt acc hacc
      have hx0 : xtime 0 ^^^ (if b / 2 ^ n % 2 = 1 then a else 0) =
          (if b / 2 ^ n % 2 = 1 then a else 0) := by
        rw [xtime_zero, Nat.zero_xor]
      simp only [mulAux]
      rw [ih a ha b (xtime acc ^^^ (if b / 2 ^ n % 2 = 1 then a else 0))
            (xor_lt256 hx hτ),
          hx0,
          xtIter_xor n (xtime acc) hx (if b / 2 ^ n % 2 = 1 then a else 0) hτ,
          ih a ha b (if b / 2 ^ n % 2 = 1 then a else 0) hτ,
          Function.iterate_succ_apply, Nat.xor_assoc]

def mulAux_zero_a : ∀ n, ∀ b : Nat, mulAux n 0 b 0 = 0 := by
  intro n
  induction n with
  | zero => intro b; rfl
  | succ n ih =>
      intro b
      simp only [mulAux, ite_self, xtime_zero, Nat.zero_xor]
      exact ih b

def mul_zero_left : ∀ b : Nat, mul 0 b = 0 := fun b => mulAux_zero_a 8 b

def mulAux_zero_b : ∀ n, ∀ a : Nat, mulAux n a 0 0 = 0 := by
  intro n
  induction n with
  | zero => intro a; rfl
  | succ n ih =>
      intro a
      have h0 : (0 : Nat) / 2 ^ n % 2 = 0 := by simp
      simp only [mulAux, h0, xtime_zero, Nat.zero_xor]
      rw [if_neg (by omega)]
      exact ih a

def mul_zero_right : ∀ a : Nat, mul a 0 = 0 := fun a => mulAux_zero_b 8 a

def mulAux_lt : ∀ n, ∀ a < 256, ∀ b : Nat, ∀ acc < 256, mulAux n a b acc < 256 := by
  intro n
  induction n with
  | zero => intro a _ b acc hacc; simpa [mulAux] using hacc
  | succ n ih =>
      intro a ha b acc hacc
      simp only [mulAux]
      exact ih a ha b _ (xor_lt256 (xtime_lt acc hacc) (tau_lt ha _))

def mul_lt : ∀ a < 256, ∀ b : Nat, mul a b < 256 := by
  intro a ha b
  exact mulAux_lt 8 a ha b 0 (by omega)

def mulAux0_xor_b : ∀ n, ∀ a < 256, ∀ b c : Nat,
    mulAux n a (b ^^^ c) 0 = mulAux n a b 0 ^^^ mulAux n a c 0 := by
  intro n
  induction n with
  | zero => intro a _ b c; simp [mulAux]
  | succ n ih =>
      intro a ha b c
      have hτb : (if b / 2 ^ n % 2 = 1 then a else 0) < 256 := tau_lt ha _
      have hτc : (if c / 2 ^ n % 2 = 1 then a else 0) < 256 := tau_lt ha _
      have hτbc : (if (b ^^^ c) / 2 ^ n % 2 = 1 then a else 0) < 256 := tau_lt ha _
      have hsplit : (if (b ^^^ c) / 2 ^ n % 2 = 1 then a else 0) =
          ((if b / 2 ^ n % 2 = 1 then a else 0) ^^^
            (if c / 2 ^ n % 2 = 1 then a else 0) : Nat) := by
        rw [tau_testBit, tau_testBit, tau_testBit, Nat.testBit_xor, tau_split]
      simp only [mulAux, xtime_zero, Nat.zero_xor]
      rw [mulAux_acc n a ha (b ^^^ c) _ hτbc, mulAux_acc n a ha b _ hτb,
          mulAux_acc n a ha c _ hτc, hsplit,
          xtIter_xor n _ hτb _ hτc, ih a ha b c]
      generalize xtime^[n] (if b / 2 ^ n % 2 = 1 then a else 0) = u
      generalize xtime^[n] (if c / 2 ^ n % 2 = 1 then a else 0) = v
      generalize mulAux n a b 0 = p
      generalize mulAux n a c 0 = q
      rw [Nat.xor_assoc, Nat.xor_assoc]
      exact congrArg (fun t => u ^^^ t) (xor_left_comm v p q)

def mulAux0_xor_a : ∀ n, ∀ a < 256, ∀ c < 256, ∀ b : Nat,
    mulAux n (a ^^^ c) b 0 = mulAux n a b 0 ^^^ mulAux n c b 0 := by
  intro n
  induction n with
  | zero => intro a _ c _ b; simp [mulAux]
  | succ n ih =>
      intro a ha c hc b
      have hτa : (if b / 2 ^ n % 2 = 1 then a else 0) < 256 := tau_lt ha _
      have hτc : (if b / 2 ^ n % 2 = 1 then c else 0) < 256 := tau_lt hc _
      have hsplit : (if b / 2 ^ n % 2 = 1 then a ^^^ c else 0) =
          ((if b / 2 ^ n % 2 = 1 then a else 0) ^^^
            (if b / 2 ^ n % 2 = 1 then c else 0) : Nat) := by
        by_cases h : b / 2 ^ n % 2 = 1
        · rw [if_pos h, if_pos h, if_pos h]
        · rw [if_neg h, if_neg h, if_neg h, Nat.xor_zero]
      simp only [mulAux, xtime_zero, Nat.zero_xor]
      rw [hsplit, mulAux_acc n (a ^^^ c) (xor_lt256 ha hc) b _
            (xor_lt256 hτa hτc),
          mulAux_acc n a ha b _ hτa, mulAux_acc n c hc b _ hτc,
          xtIter_xor n _ hτa _ hτc, ih a ha c hc b]
      generalize xtime^[n] (if b / 2 ^ n % 2 = 1 then a else 0) = u
      generalize xtime^[n] (if b / 2 ^ n % 2 = 1 then c else 0) = v
      generalize mulAux n a b 0 = p
      generalize mulAux n c b 0 = q
      rw [Nat.xor_assoc, Nat.xor_assoc]
      exact congrArg (fun t => u ^^^ t) (xor_left_comm v p q)

def mul_xor_right : ∀ a < 256, ∀ b c : Nat,
    mul a (b ^^^ c) = mul a b ^^^ mul a c := by
  intro a ha b c
  exact mulAux0_xor_b 8 a ha b c

def mul_xor_left : ∀ a < 256, ∀ c < 256, ∀ b : Nat,
    mul (a ^^^ c) b = mul a b ^^^ mul c b := by
  intro a ha c hc b
  exact mulAux0_xor_a 8 a ha c hc b

def mulAux_pow2 : ∀ n, ∀ a < 256, ∀ j : Nat,
    mulAux n a (2 ^ j) 0 = if j < n then xtime^[j] a else 0 := by
  intro n
  induction n with
  | zero => intro a _ j; simp [mulAux]
  | succ n ih =>
      intro a ha j
      have hτ : (if 2 ^ j / 2 ^ n % 2 = 1 then a else 0) =
          if j = n then a else 0 := by
        rw [tau_testBit]
        by_cases h : j = n
        · rw [if_pos (by rw [Nat.testBit_two_pow]; exact decide_eq_true h), if_pos h]
        · rw [if_neg (by rw [Nat.testBit_two_pow]; simpa using h), if_neg h]
      simp only [mulAux, xtime_zero, Nat.zero_xor]
      rw [mulAux_acc n a ha _ _ (tau_lt ha _), hτ, ih a ha j]
      by_cases h : j = n
      · subst h
        rw [if_pos (by omega), if_neg (by omega), Nat.xor_zero,
          if_pos (by omega)]
      · rw [if_neg h, xtIter_zero, Nat.zero_xor]
        by_cases h2 : j < n
        · rw [if_pos h2, if_pos (by omega)]
        · rw [if_neg h2, if_neg (by omega)]

def mul_pow2 : ∀ a < 256, ∀ j < 8, mul a (2 ^ j) = xtime^[j] a := by
  intro a ha j hj
  rw [mul, mulAux_pow2 8 a ha j, if_pos hj]

def mul_one_right : ∀ a < 256, mul a 1 = a := by
  intro a ha
  have h := mul_pow2 a ha 0 (by omega)
  simpa using h

set_option maxRecDepth 4096 in
def disj_xor : ∀ n < 9, ∀ r < 2 ^ n, 2 ^ n ^^^ r = 2 ^ n + r := by decide

def gf_ext (f g : Nat → Nat)
    (hf : ∀ x < 256, ∀ y < 256, f (x ^^^ y) = f x ^^^ f y)
    (hg : ∀ x < 256, ∀ y < 256, g (x ^^^ y) = g x ^^^ g y)
    (hbasis : ∀ i < 8, f (2 ^ i) = g (2 ^ i)) : ∀ a < 256, f a = g a := by
  have hf0 : f 0 = 0 := by
    have h := hf 0 (by omega) 0 (by omega)
    rwa [Nat.zero_xor, Nat.xor_self] at h
  have hg0 : g 0 = 0 := by
    have h := hg 0 (by omega) 0 (by omega)
    rwa [Nat.zero_xor, Nat.xor_self] at h
  have main : ∀ n, n ≤ 8 → ∀ a, a < 2 ^ n → f a = g a := by
    intro n
    induction n with
    | zero =>
        intro _ a ha
        have : a = 0 := by omega
        rw [this, hf0, hg0]
    | succ n ih =>
        intro hn a ha
        by_cases hlow : a < 2 ^ n
        · exact ih (by omega) a hlow
        · have hpow : (2 : Nat) ^ n < 256 := by
            calc (2 : Nat) ^ n ≤ 2 ^ 7 := Nat.pow_le_pow_right (by omega) (by omega)
            _ < 256 := by omega
          have hr : a - 2 ^ n < 2 ^ n := by
            have : (2 : Nat) ^ (n + 1) = 2 ^ n + 2 ^ n := by ring
            omega
          have ha2 : a = 2 ^ n ^^^ (a - 2 ^ n) := by
            rw [disj_xor n (by omega) (a - 2 ^ n) hr]
            omega
          rw [ha2, hf (2 ^ n) hpow (a - 2 ^ n) (by omega),
            hg (2 ^ n) hpow (a - 2 ^ n) (by omega),
            hbasis n (by omega), ih (by omega) (a - 2 ^ n) hr]
  intro a ha
  exact main 8 (by omega) a (by omega)

def pow2_eq_iter : ∀ i < 8, (2 : Nat) ^ i = xtime^[i] 1 := by decide

def mul_pow2_pow2 : ∀ i < 8, ∀ j < 8,
    mul (2 ^ i) (2 ^ j) = xtime^[i + j] 1 := by
  intro i hi j hj
  have hpi : (2 : Nat) ^ i < 256 := by
    calc (2 : Nat) ^ i ≤ 2 ^ 7 := Nat.pow_le_pow_right (by omega) (by omega)
    _ < 256 := by omega
  rw [mul_pow2 (2 ^ i) hpi j hj, pow2_eq_iter i hi,
    ← Function.iterate_add_apply, Nat.add_comm]

def mul_comm256 : ∀ a < 256, ∀ b < 256, mul a b = mul b a := by
  intro a ha b hb
  have hpow : ∀ i : Nat, i < 8 → (2 : Nat) ^ i < 256 := by
    intro i hi
    calc (2 : Nat) ^ i ≤ 2 ^ 7 := Nat.pow_le_pow_right (by omega) (by omega)
    _ < 256 := by omega
  refine gf_ext (fun x => mul x b) (fun x => mul b x) ?_ ?_ ?_ a ha
  · intro x hx y hy
    exact mul_xor_left x hx y hy b
  · intro x hx y hy
    exact mul_xor_right b hb x y
  · intro i hi
    refine gf_ext (fun x => mul (2 ^ i) x) (fun x => mul x (2 ^ i)) ?_ ?_ ?_ b hb
    · intro x hx y hy
      exact mul_xor_right (2 ^ i) (hpow i hi) x y
    · intro x hx y hy
      exact mul_xor_left x hx y hy (2 ^ i)
    · intro j hj
      show mul (2 ^ i) (2 ^ j) = mul (2 ^ j) (2 ^ i)
      rw [mul_pow2_pow2 i hi j hj, mul_pow2_pow2 j hj i hi, Nat.add_comm]

def pow2_lt : ∀ i < 8, (2 : Nat) ^ i < 256 := by
  intro i hi
  calc (2 : Nat) ^ i ≤ 2 ^ 7 := Nat.pow_le_pow_right (by omega) (by omega)
  _ < 256 := by omega

def xtime_pow2 : ∀ j < 7, xtime (2 ^ j) = 2 ^ (j + 1) := by decide

def xtime_128 : xtime 128 = 27 := by decide

def mul_27 : ∀ a < 256, mul a 27 = xtime^[8] a := by
  intro a ha
  refine gf_ext (fun x => mul x 27) (fun x => xtime^[8] x) ?_ ?_ ?_ a ha
  · intro x hx y hy
    exact mul_xor_left x hx y hy 27
  · intro x hx y hy
    exact xtIter_xor 8 x hx y hy
  · decide
  
def mul_xtime : ∀ a < 256, ∀ b < 256,
    mul a (xtime b) = xtime (mul a b) := by
  intro a ha b hb
  refine gf_ext (fun x => mul a (xtime x)) (fun x => xtime (mul a x)) ?_ ?_ ?_ b hb
  · intro x hx y hy
    show mul a (xtime (x ^^^ y)) = mul a (xtime x) ^^^ mul a (xtime y)
    rw [xtime_xor x hx y hy]
    exact mul_xor_right a ha (xtime x) (xtime y)
  · intro x hx y hy
    show xtime (mul a (x ^^^ y)) = xtime (mul a x) ^^^ xtime (mul a y)
    rw [mul_xor_right a ha x y]
    exact xtime_xor (mul a x) (mul_lt a ha x) (mul a y) (mul_lt a ha y)
  · intro j hj
    show mul a (xtime (2 ^ j)) = xtime (mul a (2 ^ j))
    by_cases h7 : j = 7
    · subst h7
      have h128 : (2 : Nat) ^ 7 = 128 := by norm_num
      rw [h128, xtime_128, mul_27 a ha]
      rw [show (128 : Nat) = 2 ^ 7 by norm_num, mul_pow2 a ha 7 (by omega)]
      rw [← Function.iterate_succ_apply' xtime 7 a]
    · rw [xtime_pow2 j (by omega), mul_pow2 a ha (j + 1) (by omega),
        mul_pow2 a ha j hj, ← Function.iterate_succ_apply' xtime j a]

def mul_xtIter : ∀ m, ∀ a < 256, ∀ b < 256,
    mul a (xtime^[m] b) = xtime^[m] (mul a b) := by
  intro m
  induction m with
  | zero => intro a _ b _; rfl
  | succ m ih =>
      intro a ha b hb
      rw [Function.iterate_succ_apply' xtime m b,
        mul_xtime a ha (xtime^[m] b) (xtIter_lt m b hb),
        ih a ha b hb, Function.iterate_succ_apply' xtime m (mul a b)]

def mul_assoc256 : ∀ a < 256, ∀ b < 256, ∀ c < 256,
    mul (mul a b) c = mul a (mul b c) := by
  intro a ha b hb c hc
  refine gf_ext (fun x => mul (mul x b) c) (fun x => mul x (mul b c)) ?_ ?_ ?_ a ha
  · intro x hx y hy
    show mul (mul (x ^^^ y) b) c = mul (mul x b) c ^^^ mul (mul y b) c
    rw [mul_xor_left x hx y hy b]
    exact mul_xor_left (mul x b) (mul_lt x hx b) (mul y b) (mul_lt y hy b) c
  · intro x hx y hy
    exact mul_xor_left x hx y hy (mul b c)
  · intro i hi
    show mul (mul (2 ^ i) b) c = mul (2 ^ i) (mul b c)
    have hpi := pow2_lt i hi
    refine gf_ext (fun x => mul (mul (2 ^ i) x) c) (fun x => mul (2 ^ i) (mul x c))
      ?_ ?_ ?_ b hb
    · intro x hx y hy
      show mul (mul (2 ^ i) (x ^^^ y)) c = mul (mul (2 ^ i) x) c ^^^ mul (mul (2 ^ i) y) c
      rw [mul_xor_right (2 ^ i) hpi x y]
      exact mul_xor_left (mul (2 ^ i) x) (mul_lt (2 ^ i) hpi x)
        (mul (2 ^ i) y) (mul_lt (2 ^ i) hpi y) c
    · intro x hx y hy
      show mul (2 ^ i) (mul (x ^^^ y) c) = mul (2 ^ i) (mul x c) ^^^ mul (2 ^ i) (mul y c)
      rw [mul_xor_left x hx y hy c]
      exact mul_xor_right (2 ^ i) hpi (mul x c) (mul y c)
    · intro j hj
      show mul (mul (2 ^ i) (2 ^ j)) c = mul (2 ^ i) (mul (2 ^ j) c)
      have hpj := pow2_lt j hj
      have hij : mul (2 ^ i) (2 ^ j) < 256 := mul_lt (2 ^ i) hpi (2 ^ j)
      refine gf_ext (fun x => mul (mul (2 ^ i) (2 ^ j)) x)
        (fun x => mul (2 ^ i) (mul (2 ^ j) x)) ?_ ?_ ?_ c hc
      · intro x hx y hy
        exact mul_xor_right (mul (2 ^ i) (2 ^ j)) hij x y
      · intro x hx y hy
        show mul (2 ^ i) (mul (2 ^ j) (x ^^^ y)) =
          mul (2 ^ i) (mul (2 ^ j) x) ^^^ mul (2 ^ i) (mul (2 ^ j) y)
        rw [mul_xor_right (2 ^ j) hpj x y]
        exact mul_xor_right (2 ^ i) hpi (mul (2 ^ j) x) (mul (2 ^ j) y)
      · intro k hk
        show mul (mul (2 ^ i) (2 ^ j)) (2 ^ k) = mul (2 ^ i) (mul (2 ^ j) (2 ^ k))
        rw [mul_pow2 (mul (2 ^ i) (2 ^ j)) hij k hk,
          mul_pow2 (2 ^ j) hpj k hk,
          mul_xtIter k (2 ^ i) hpi (2 ^ j) hpj]

def mul_one_left : ∀ a < 256, mul 1 a = a := by
  intro a ha
  rw [mul_comm256 1 (by omega) a ha]
  exact mul_one_right a ha

def inv_lt : ∀ a : Nat, inv a < 256 := by
  intro a
  exact Nat.mod_lt _ (by omega)

def inv_zero_eq : inv 0 = 0 := by decide

set_option maxRecDepth 4096 in
def inv_cancel : ∀ a < 256, a ≠ 0 → mul a (inv a) = 1 := by decide

/-- Field elements of GF(2^8): naturals below 256. -/
structure GF where
  val : Nat
  isLt : val < 256
deriving DecidableEq

def GF.vinj : ∀ {a b : GF}, a.val = b.val → a = b := by
  intro a b h
  cases a
  cases b
  simp only at h
  subst h
  rfl

instance : Zero GF := ⟨⟨0, by omega⟩⟩

instance : One GF := ⟨⟨1, by omega⟩⟩

instance : Add GF := ⟨fun a b => ⟨a.val ^^^ b.val, xor_lt256 a.isLt b.isLt⟩⟩

instance : Mul GF := ⟨fun a b => ⟨mul a.val b.val, mul_lt a.val a.isLt b.val⟩⟩

instance : Neg GF := ⟨fun a => a⟩

instance : Inv GF := ⟨fun a => ⟨inv a.val, inv_lt a.val⟩⟩

def GF.val_zero : (0 : GF).val = 0 := rfl

def GF.val_one : (1 : GF).val = 1 := rfl

def GF.val_add (a b : GF) : (a + b).val = a.val ^^^ b.val := rfl

def GF.val_mul (a b : GF) : (a * b).val = mul a.val b.val := rfl

def GF.val_inv (a : GF) : (a⁻¹).val = inv a.val := rfl

def GF.val_neg (a : GF) : (-a).val = a.val := rfl

instance : Field GF :=
  Field.ofMinimalAxioms GF
    (by
      intro a b c
      apply GF.vinj
      simp only [GF.val_add]
      exact Nat.xor_assoc a.val b.val c.val)
    (by
      intro a
      apply GF.vinj
      simp only [GF.val_add, GF.val_zero]
      exact Nat.zero_xor a.val)
    (by
      intro a
      apply GF.vinj
      simp only [GF.val_add, GF.val_neg, GF.val_zero]
      exact Nat.xor_self a.val)
    (by
      intro a b c
      apply GF.vinj
      simp only [GF.val_mul]
      exact mul_assoc256 a.val a.isLt b.val b.isLt c.val c.isLt)
    (by
      intro a b
      apply GF.vinj
      simp only [GF.val_mul]
      exact mul_comm256 a.val a.isLt b.val b.isLt)
    (by
      intro a
      apply GF.vinj
      simp only [GF.val_mul, GF.val_one]
      exact mul_one_left a.val a.isLt)
    (by
      intro a ha
      apply GF.vinj
      simp only [GF.val_mul, GF.val_inv, GF.val_one]
      refine inv_cancel a.val a.isLt ?_
      intro h0
      exact ha (GF.vinj (by simp only [GF.val_zero]; exact h0)))
    (by
      apply GF.vinj
      simp only [GF.val_inv, GF.val_zero]
      exact inv_zero_eq)
    (by
      intro a b c
      apply GF.vinj
      simp only [GF.val_mul, GF.val_add]
      exact mul_xor_right a.val a.isLt b.val c.val)
    ⟨0, 1, by
      intro h
      have h2 := congrArg GF.val h
      simp only [GF.val_zero, GF.val_one] at h2
      omega⟩

def GF.val_sub (a b : GF) : (a - b).val = a.val ^^^ b.val := by
  rw [sub_eq_add_neg]
  rfl

def GF.val_div (a b : GF) : (a / b).val = div a.val b.val := by
  rw [div_eq_mul_inv]
  rfl

def GF.neg_eq (a : GF) : -a = a := rfl

/-- Coefficient list (constant term first) read as a polynomial over GF. -/
noncomputable def toPoly : List GF → Polynomial GF
  | [] => 0
  | c :: t => Polynomial.C c + Polynomial.X * toPoly t

/-- Horner evaluation of a coefficient list over GF. -/
def evalG : List GF → GF → GF
  | [], _ => 0
  | c :: t, x => c + x * evalG t x

def toPoly_eval : ∀ (l : List GF) (x : GF), (toPoly l).eval x = evalG l x := by
  intro l
  induction l with
  | nil => intro x; simp [toPoly, evalG]
  | cons c t ih =>
      intro x
      simp [toPoly, evalG, Polynomial.eval_add, Polynomial.eval_mul, ih]

def evalG_zero_point : ∀ l : List GF, evalG l 0 = l.headD 0 := by
  intro l
  cases l with
  | nil => rfl
  | cons c t => simp [evalG]

def toPoly_coeff : ∀ (l : List GF) (n : Nat), (toPoly l).coeff n = l.getD n 0 := by
  intro l
  induction l with
  | nil => intro n; simp [toPoly]
  | cons c t ih =>
      intro n
      cases n with
      | zero =>
          simp [toPoly, Polynomial.coeff_add, Polynomial.coeff_C,
            Polynomial.coeff_X_mul_zero]
      | succ n =>
          simp [toPoly, Polynomial.coeff_add, Polynomial.coeff_C,
            Polynomial.coeff_X_mul, ih]

def toPoly_degree_lt : ∀ (l : List GF) (n : Nat), l.length ≤ n →
    (toPoly l).degree < (n : Nat) := by
  intro l n hn
  rw [Polynomial.degree_lt_iff_coeff_zero]
  intro m hm
  rw [toPoly_coeff]
  rw [List.getD_eq_getElem?_getD, List.getElem?_eq_none (by omega)]
  rfl

/-- Faithful embedding of the inner loop of the repository function
interpolate: iterate over all points with counter j, skipping position i,
multiplying the running weight by div(x xor b.x, a.x xor b.x). -/
def weightLoop (x ax : Nat) (i : Nat) : Nat → List (Nat × Nat) → Nat → Nat
  | _, [], w => w
  | j, b :: rest, w =>
      weightLoop x ax i (j + 1) rest
        (if i ≠ j then mul w (div (x ^^^ b.1) (ax ^^^ b.1)) else w)

/-- Faithful embedding of the outer loop of the repository function
interpolate: for each point a at position i, xor mul(weight, a.y) into the
running value. -/
def valueLoop (x : Nat) (points : List (Nat × Nat)) :
    Nat → List (Nat × Nat) → Nat → Nat
  | _, [], value => value
  | i, a :: rest, value =>
      valueLoop x points (i + 1) rest
        (value ^^^ mul (weightLoop x a.1 i 0 points 1) a.2)

/-- The repository function interpolate (Lagrange interpolation over
GF(2^8)), embedded from the source. -/
def interpolate (points : List (Nat × Nat)) (x : Nat) : Nat :=
  valueLoop x points 0 points 0

/-- GF-valued mirror of weightLoop. -/
def weightLoopG (x ax : GF) (i : Nat) : Nat → List (GF × GF) → GF → GF
  | _, [], w => w
  | j, b :: rest, w =>
      weightLoopG x ax i (j + 1) rest
        (if i ≠ j then w * ((x + b.1) / (ax + b.1)) else w)

/-- GF-valued mirror of valueLoop. -/
def valueLoopG (x : GF) (points : List (GF × GF)) :
    Nat → List (GF × GF) → GF → GF
  | _, [], value => value
  | i, a :: rest, value =>
      valueLoopG x points (i + 1) rest
        (value + weightLoopG x a.1 i 0 points 1 * a.2)

/-- GF-valued mirror of interpolate. -/
def interpolateG (points : List (GF × GF)) (x : GF) : GF :=
  valueLoopG x points 0 points 0

/-- Total embedding of a byte into GF. -/
def gfOf (n : Nat) : GF := ⟨n % 256, Nat.mod_lt _ (by omega)⟩

def gfOf_val : ∀ n < 256, (gfOf n).val = n := by
  intro n hn
  exact Nat.mod_eq_of_lt hn

def gfPair (p : Nat × Nat) : GF × GF := (gfOf p.1, gfOf p.2)

def weightLoop_comm :
    ∀ (rest : List (Nat × Nat)), (∀ p ∈ rest, p.1 < 256 ∧ p.2 < 256) →
    ∀ x < 256, ∀ ax < 256, ∀ i j w, w < 256 →
    weightLoop x ax i j rest w =
      (weightLoopG (gfOf x) (gfOf ax) i j (rest.map gfPair) (gfOf w)).val := by
  intro rest
  induction rest with
  | nil =>
      intro _ x hx ax hax i j w hw
      simp [weightLoop, weightLoopG, gfOf_val w hw]
  | cons b rest ih =>
      intro hb x hx ax hax i j w hw
      have hb1 : b.1 < 256 := (hb b (by simp)).1
      have hrest : ∀ p ∈ rest, p.1 < 256 ∧ p.2 < 256 := by
        intro p hp
        exact hb p (by simp [hp])
      simp only [weightLoop, weightLoopG, List.map_cons]
      have harg : (if i ≠ j then mul w (div (x ^^^ b.1) (ax ^^^ b.1)) else w) =
          ((if i ≠ j then gfOf w * ((gfOf x + (gfPair b).1) / (gfOf ax + (gfPair b).1))
            else gfOf w) : GF).val := by
        by_cases hij : i ≠ j
        · rw [if_pos hij, if_pos hij, GF.val_mul, GF.val_div, GF.val_add, GF.val_add]
          show mul w (div (x ^^^ b.1) (ax ^^^ b.1)) =
            mul (gfOf w).val
              (div ((gfOf x).val ^^^ (gfOf b.1).val) ((gfOf ax).val ^^^ (gfOf b.1).val))
          rw [gfOf_val w hw, gfOf_val x hx, gfOf_val ax hax, gfOf_val b.1 hb1]
        · rw [if_neg hij, if_neg hij, gfOf_val w hw]
      have hlt : (if i ≠ j then mul w (div (x ^^^ b.1) (ax ^^^ b.1)) else w) < 256 := by
        by_cases hij : i ≠ j
        · rw [if_pos hij]; exact mul_lt w hw _
        · rw [if_neg hij]; exact hw
      rw [ih hrest x hx ax hax i (j + 1) _ hlt]
      have hargeq : gfOf (if i ≠ j then mul w (div (x ^^^ b.1) (ax ^^^ b.1)) else w) =
          (if i ≠ j then gfOf w * ((gfOf x + (gfPair b).1) / (gfOf ax + (gfPair b).1))
            else gfOf w) :=
        GF.vinj (by rw [gfOf_val _ hlt]; exact harg)
      rw [hargeq]

def valueLoop_comm :
    ∀ (rest : List (Nat × Nat)) (points : List (Nat × Nat)),
    (∀ p ∈ rest, p.1 < 256 ∧ p.2 < 256) →
    (∀ p ∈ points, p.1 < 256 ∧ p.2 < 256) →
    ∀ x < 256, ∀ i value, value < 256 →
    valueLoop x points i rest value =
      (valueLoopG (gfOf x) (points.map gfPair) i (rest.map gfPair) (gfOf value)).val := by
  intro rest
  induction rest with
  | nil =>
      intro points _ _ x hx i value hv
      simp [valueLoop, valueLoopG, gfOf_val value hv]
  | cons a rest ih =>
      intro points ha hpts x hx i value hv
      have ha1 : a.1 < 256 := (ha a (by simp)).1
      have hrest : ∀ p ∈ rest, p.1 < 256 ∧ p.2 < 256 := by
        intro p hp
        exact ha p (by simp [hp])
      simp only [valueLoop, valueLoopG, List.map_cons]
      have hw := weightLoop_comm points hpts x hx a.1 ha1 i 0 1 (by omega)
      have harg : (value ^^^ mul (weightLoop x a.1 i 0 points 1) a.2) =
          ((gfOf value + weightLoopG (gfOf x) (gfOf a.1) i 0 (points.map gfPair) (gfOf 1) *
            (gfPair a).2) : GF).val := by
        rw [GF.val_add, GF.val_mul, gfOf_val value hv]
        show value ^^^ mul (weightLoop x a.1 i 0 points 1) a.2 =
          value ^^^
            mul (weightLoopG (gfOf x) (gfOf a.1) i 0 (points.map gfPair) (gfOf 1)).val
              (gfOf a.2).val
        rw [← hw, gfOf_val a.2 (ha a (by simp)).2]
      have hlt : value ^^^ mul (weightLoop x a.1 i 0 points 1) a.2 < 256 := by
        have h2 : mul (weightLoop x a.1 i 0 points 1) a.2 < 256 := by
          rw [hw]
          have := (weightLoopG (gfOf x) (gfOf a.1) i 0 (points.map gfPair) (gfOf 1)).isLt
          exact mul_lt _ this a.2
        exact xor_lt256 hv h2
      rw [ih points hrest hpts x hx (i + 1) _ hlt]
      have hargeq : gfOf (value ^^^ mul (weightLoop x a.1 i 0 points 1) a.2) =
          (gfOf value + weightLoopG (gfOf x) (gfOf a.1) i 0 (points.map gfPair) (gfOf 1) *
            (gfPair a).2) :=
        GF.vinj (by rw [gfOf_val _ hlt]; exact harg)
      rw [hargeq]
      rfl

def interpolate_comm :
    ∀ (points : List (Nat × Nat)), (∀ p ∈ points, p.1 < 256 ∧ p.2 < 256) →
    ∀ x < 256,
    interpolate points x = (interpolateG (points.map gfPair) (gfOf x)).val := by
  intro points hpts x hx
  exact valueLoop_comm points points hpts hpts x hx 0 0 (by omega)

/-- A single Lagrange factor at evaluation point x. -/
def fctG (x ax : GF) (b : GF × GF) : GF := (x + b.1) / (ax + b.1)

/-- Product of Lagrange factors over a list, skipping global position i;
j is the position of the head of the remaining list. -/
def prodSkip (x ax : GF) (i : Nat) : Nat → List (GF × GF) → GF
  | _, [] => 1
  | j, b :: rest => (if i = j then 1 else fctG x ax b) * prodSkip x ax i (j + 1) rest

/-- Sum of weighted values over the remaining points. -/
def sumSkip (x : GF) (points : List (GF × GF)) : Nat → List (GF × GF) → GF
  | _, [] => 0
  | i, a :: rest => prodSkip x a.1 i 0 points * a.2 + sumSkip x points (i + 1) rest

def weightLoopG_eq : ∀ (rest : List (GF × GF)) (x ax : GF) (i j : Nat) (w : GF),
    weightLoopG x ax i j rest w = w * prodSkip x ax i j rest := by
  intro rest
  induction rest with
  | nil => intro x ax i j w; simp [weightLoopG, prodSkip]
  | cons b rest ih =>
      intro x ax i j w
      simp only [weightLoopG, prodSkip]
      rw [ih]
      by_cases h : i = j
      · rw [if_neg (by omega), if_pos h, one_mul]
      · rw [if_pos h, if_neg h, mul_assoc]
        rfl

def valueLoopG_eq : ∀ (rest : List (GF × GF)) (x : GF) (points : List (GF × GF))
    (i : Nat) (v : GF), valueLoopG x points i rest v = v + sumSkip x points i rest := by
  intro rest
  induction rest with
  | nil => intro x points i v; simp [valueLoopG, sumSkip]
  | cons a rest ih =>
      intro x points i v
      simp only [valueLoopG, sumSkip]
      rw [ih, weightLoopG_eq, one_mul, add_assoc]

def interpolateG_eq (points : List (GF × GF)) (x : GF) :
    interpolateG points x = sumSkip x points 0 points := by
  rw [interpolateG, valueLoopG_eq, zero_add]

def prodSkip_fin : ∀ (n : Nat) (points : List (GF × GF)) (x ax : GF) (i j : Nat),
    points.length - j = n → j ≤ points.length →
    prodSkip x ax i j (points.drop j) =
      ∏ k ∈ Finset.Ico j points.length,
        (if i = k then 1 else fctG x ax (points.getD k (0, 0))) := by
  intro n
  induction n with
  | zero =>
      intro points x ax i j hn hj
      have hj2 : j = points.length := by omega
      subst hj2
      rw [List.drop_length, Finset.Ico_self, Finset.prod_empty]
      rfl
  | succ n ih =>
      intro points x ax i j hn hj
      have hjlt : j < points.length := by omega
      rw [List.drop_eq_getElem_cons hjlt]
      show (if i = j then 1 else fctG x ax points[j]) *
          prodSkip x ax i (j + 1) (points.drop (j + 1)) = _
      rw [ih points x ax i (j + 1) (by omega) (by omega),
        Finset.prod_eq_prod_Ico_succ_bot hjlt]
      have hg : points.getD j (0, 0) = points[j] := by
        rw [List.getD_eq_getElem?_getD, List.getElem?_eq_getElem hjlt]
        rfl
      rw [hg]

def sumSkip_fin : ∀ (n : Nat) (points : List (GF × GF)) (x : GF) (j : Nat),
    points.length - j = n → j ≤ points.length →
    sumSkip x points j (points.drop j) =
      ∑ k ∈ Finset.Ico j points.length,
        prodSkip x ((points.getD k (0, 0)).1) k 0 points * (points.getD k (0, 0)).2 := by
  intro n
  induction n with
  | zero =>
      intro points x j hn hj
      have hj2 : j = points.length := by omega
      subst hj2
      rw [List.drop_length, Finset.Ico_self, Finset.sum_empty]
      rfl
  | succ n ih =>
      intro points x j hn hj
      have hjlt : j < points.length := by omega
      rw [List.drop_eq_getElem_cons hjlt]
      show prodSkip x (points[j].1) j 0 points * points[j].2 +
          sumSkip x points (j + 1) (points.drop (j + 1)) = _
      rw [ih points x (j + 1) (by omega) (by omega),
        Finset.sum_eq_sum_Ico_succ_bot hjlt]
      have hg : points.getD j (0, 0) = points[j] := by
        rw [List.getD_eq_getElem?_getD, List.getElem?_eq_getElem hjlt]
        rfl
      rw [hg]

def prod_ite_erase (s : Finset Nat) (k : Nat) (g : Nat → GF) :
    ∏ m ∈ s, (if k = m then 1 else g m) = ∏ m ∈ s.erase k, g m := by
  rw [← Finset.prod_erase s (f := fun m => if k = m then 1 else g m) (a := k) (if_pos rfl)]
  apply Finset.prod_congr rfl
  intro m hm
  rw [if_neg]
  intro hkm
  exact (Finset.mem_erase.mp hm).1 hkm.symm

def interpolateG_fin (points : List (GF × GF)) (x : GF) :
    interpolateG points x =
      ∑ k ∈ Finset.range points.length,
        (∏ m ∈ (Finset.range points.length).erase k,
          fctG x ((points.getD k (0, 0)).1) (points.getD m (0, 0))) *
          (points.getD k (0, 0)).2 := by
  rw [interpolateG_eq]
  have hs := sumSkip_fin points.length points x 0 (by omega) (by omega)
  rw [List.drop_zero] at hs
  rw [hs, ← Finset.range_eq_Ico]
  apply Finset.sum_congr rfl
  intro k hk
  have hp := prodSkip_fin points.length points x ((points.getD k (0, 0)).1) k 0
    (by omega) (by omega)
  rw [List.drop_zero] at hp
  rw [hp, ← Finset.range_eq_Ico, prod_ite_erase]

def GF.sub_eq (a b : GF) : a - b = a + b := by
  rw [sub_eq_add_neg]
  rfl

def getD_mem_of_lt (points : List (GF × GF)) (k : Nat) (hk : k < points.length) :
    points.getD k (0, 0) ∈ points := by
  rw [List.getD_eq_getElem?_getD, List.getElem?_eq_getElem hk]
  exact List.getElem_mem hk

def vOf (points : List (GF × GF)) : Nat → GF := fun k => (points.getD k (0, 0)).1

def rOf (points : List (GF × GF)) : Nat → GF := fun k => (points.getD k (0, 0)).2

def fct_basisDivisor (xk : GF) (b : GF × GF) :
    fctG 0 xk b = (Lagrange.basisDivisor xk b.1).eval 0 := by
  simp only [Lagrange.basisDivisor, Polynomial.eval_mul, Polynomial.eval_C,
    Polynomial.eval_sub, Polynomial.eval_X, fctG, GF.sub_eq, zero_add]
  rw [div_eq_mul_inv, mul_comm]

def vOf_injOn (points : List (GF × GF)) (hnd : (points.map Prod.fst).Nodup) :
    Set.InjOn (vOf points) (Finset.range points.length) := by
  intro k hk k' hk' heq
  rw [Finset.coe_range, Set.mem_Iio] at hk hk'
  have hkm : k < (points.map Prod.fst).length := by
    rw [List.length_map]; exact hk
  have hkm' : k' < (points.map Prod.fst).length := by
    rw [List.length_map]; exact hk'
  have h1 : (points.map Prod.fst)[k] = (points.map Prod.fst)[k'] := by
    rw [List.getElem_map, List.getElem_map]
    have e1 : points[k] = points.getD k (0, 0) := by
      rw [List.getD_eq_getElem?_getD, List.getElem?_eq_getElem hk, Option.getD_some]
    have e2 : points[k'] = points.getD k' (0, 0) := by
      rw [List.getD_eq_getElem?_getD, List.getElem?_eq_getElem hk', Option.getD_some]
    rw [e1, e2]
    exact heq
  exact (List.Nodup.getElem_inj_iff hnd).mp h1

/-- Core interpolation correctness over GF(2^8): if every supplied point lies
on the polynomial with coefficient list p, the points have pairwise distinct
first coordinates, and there are at least as many points as coefficients,
then interpolation at 0 returns the constant term. -/
def lagrangeG (points : List (GF × GF)) (p : List GF)
    (hnd : (points.map Prod.fst).Nodup)
    (hlen : p.length ≤ points.length)
    (heval : ∀ q ∈ points, evalG p q.1 = q.2) :
    interpolateG points 0 = p.headD 0 := by
  classical
  have hvs := vOf_injOn points hnd
  have hcard : (toPoly p).degree < ((Finset.range points.length).card : Nat) := by
    rw [Finset.card_range]
    exact toPoly_degree_lt p points.length hlen
  have heval2 : ∀ k ∈ Finset.range points.length,
      (toPoly p).eval (vOf points k) = rOf points k := by
    intro k hk
    rw [Finset.mem_range] at hk
    rw [toPoly_eval]
    exact heval (points.getD k (0, 0)) (getD_mem_of_lt points k hk)
  have hinterp : toPoly p =
      Lagrange.interpolate (Finset.range points.length) (vOf points) (rOf points) :=
    Lagrange.eq_interpolate_of_eval_eq (rOf points) hvs hcard heval2
  have hterm : ∀ k ∈ Finset.range points.length,
      (∏ j ∈ (Finset.range points.length).erase k,
        fctG 0 ((points.getD k (0, 0)).1) (points.getD j (0, 0))) *
        (points.getD k (0, 0)).2 =
      (Polynomial.C (rOf points k) *
        Lagrange.basis (Finset.range points.length) (vOf points) k).eval 0 := by
    intro k hk
    have hb : (∏ j ∈ (Finset.range points.length).erase k,
        fctG 0 ((points.getD k (0, 0)).1) (points.getD j (0, 0))) =
        (Lagrange.basis (Finset.range points.length) (vOf points) k).eval 0 := by
      rw [Lagrange.basis, Polynomial.eval_prod]
      apply Finset.prod_congr rfl
      intro j hj
      exact fct_basisDivisor ((points.getD k (0, 0)).1) (points.getD j (0, 0))
    rw [Polynomial.eval_mul, Polynomial.eval_C, hb, mul_comm]
    rfl
  rw [interpolateG_fin points 0, Finset.sum_congr rfl hterm,
    ← Polynomial.eval_finset_sum, ← Lagrange.interpolate_apply, ← hinterp,
    toPoly_eval, evalG_zero_point]

/-- Option-valued map over a list: none if any element fails.  Used to model
loops whose body can fault (index out of range). -/
def mapO (f : α → Option β) : List α → Option (List β)
  | [] => some []
  | a :: l =>
      match f a, mapO f l with
      | some b, some bs => some (b :: bs)
      | _, _ => none

/-- Errors surfaced by the split entry points. -/
inductive GoError where
  | invalidThreshold
  | invalidCount
  | io (code : Nat)
deriving DecidableEq

/-- A random source: a finite stream of reads, each either a byte value or an
I/O error code.  Reading from an exhausted stream fails with code 0 (EOF); an
error entry models a reader in a persistent failure state, so a failed read
does not consume it. -/
abbrev Rand := List (Except Nat Nat)

/-- Read one byte from the source. -/
def read1 : Rand → Except GoError (Nat × Rand)
  | [] => .error (.io 0)
  | .error e :: _ => .error (.io e)
  | .ok b :: rest => .ok (b % 256, rest)

/-- io.ReadFull of n bytes: reads one byte at a time, aborting on the first
error. -/
def readN : Nat → Rand → Except GoError (List Nat × Rand)
  | 0, s => .ok ([], s)
  | n + 1, s =>
      match read1 s with
      | .error e => .error e
      | .ok (b, s2) =>
          match readN n s2 with
          | .error e => .error e
          | .ok (bs, s3) => .ok (b :: bs, s3)

/-- The rejection-sampling loop shared by generate and generateRand: read one
byte at a time until a nonzero byte is found; a read error is propagated. -/
def fixLeadLoop : Rand → Except GoError (Nat × Rand)
  | [] => .error (.io 0)
  | .error e :: _ => .error (.io e)
  | .ok b :: rest =>
      if b % 256 ≠ 0 then .ok (b % 256, rest) else fixLeadLoop rest

/-- generateRand checks the already-drawn byte first and only reads when it
is zero. -/
def fixLead (cur : Nat) (s : Rand) : Except GoError (Nat × Rand) :=
  if cur ≠ 0 then .ok (cur, s) else fixLeadLoop s

/-- The repository function generate (gf256 part): a random polynomial of the
given degree with constant term x.  It reads degree-1 middle coefficients in
one ReadFull (the byte subtraction degree-1 wraps, hence (degree+255) % 256),
then rejection-samples a nonzero leading coefficient.  For degree 0 the
leading-coefficient write lands on index 0, overwriting x. -/
def generate (degree x : Nat) (s : Rand) : Except GoError (List Nat × Rand) :=
  match readN ((degree + 255) % 256) s with
  | .error e => .error e
  | .ok (buf, s2) =>
      match fixLeadLoop s2 with
      | .error e => .error e
      | .ok (lead, s3) =>
          if degree = 0 then .ok ([lead], s3)
          else .ok (x :: buf ++ [lead], s3)

/-- Row processing of the repository function generateRand: each row starts
with the secret byte, keeps the k-2 middle bytes of its chunk of the upfront
random block, and fixes the last byte to be nonzero (the upfront byte counts
as the first sample).  Callers guarantee k ≥ 2. -/
def generateRandRows (k : Nat) : List Nat → List Nat → Rand →
    Except GoError (List Nat × Rand)
  | [], _, s => .ok ([], s)
  | b :: secret, flat, s =>
      match fixLead ((flat.take k).getLastD 0) s with
      | .error e => .error e
      | .ok (lead, s2) =>
          match generateRandRows k secret (flat.drop k) s2 with
          | .error e => .error e
          | .ok (rows, s3) =>
              .ok ((b :: ((flat.take k).drop 1).dropLast ++ [lead]) ++ rows, s3)

/-- The repository function generateRand: draws k * len(secret) random bytes
in one ReadFull, then per row installs the secret byte and enforces a nonzero
leading byte. -/
def generateRand (k : Nat) (secret : List Nat) (s : Rand) :
    Except GoError (List Nat × Rand) :=
  match readN (k * secret.length) s with
  | .error e => .error e
  | .ok (flat, s2) => generateRandRows k secret flat s2

/-- The leading-coefficient loop of the repository function generatePolys:
on a read error it decrements the row counter and retries (so a persistent
error makes it loop forever); on a zero byte it also retries.  fuel bounds
the number of iterations; none models nontermination. -/
def rejectRetry : Nat → Rand → Option (Nat × Rand)
  | 0, _ => none
  | fuel + 1, s =>
      match s with
      | [] => rejectRetry fuel []
      | .error e :: rest => rejectRetry fuel (.error e :: rest)
      | .ok b :: rest =>
          if b % 256 ≠ 0 then some (b % 256, rest) else rejectRetry fuel rest

/-- Per-row leading-coefficient fixing of generatePolys. -/
def polysLeads (fuel : Nat) : List (List Nat) → Rand →
    Option (List (List Nat) × Rand)
  | [], s => some ([], s)
  | row :: rows, s =>
      match rejectRetry fuel s with
      | none => none
      | some (lead, s2) =>
          match polysLeads fuel rows s2 with
          | none => none
          | some (rest, s3) => some ((row.dropLast ++ [lead]) :: rest, s3)

/-- The repository function generatePolys: one upfront ReadFull of
degree * len(x) bytes, rows assembled with byte-wrapped indexing
(buf[byte(i)*degree + j - 1]), then a per-row rejection loop for the leading
byte that swallows read errors and retries.  The retry fuel
stream length + 1 is exhausted exactly when the code would loop forever,
since only successful reads consume the stream. -/
def generatePolys (degree : Nat) (x : List Nat) (s : Rand) :
    Option (Except GoError (List (List Nat) × Rand)) :=
  match readN (degree * x.length) s with
  | .error e => some (.error e)
  | .ok (buf, s2) =>
      match polysLeads (s2.length + 1)
          ((List.range x.length).map (fun i =>
            x.getD i 0 ::
              (List.range degree).map (fun j => buf.getD ((i * degree + j) % 256) 0)))
          s2 with
      | none => none
      | some (rows, s3) => some (.ok (rows, s3))

/-- The repository function eval: Horner evaluation, iterating from the
highest-degree coefficient p[len-1] down to p[0], each step computing
result = mul(result, x) xor coefficient. -/
def eval (p : List Nat) (x : Nat) : Nat :=
  p.reverse.foldl (fun result c => mul result x ^^^ c) 0

/-- The repository function Compute: share bytes for one share ID, slicing
k coefficients per secret byte out of the flat polynomial block. -/
def Compute (lenSecret k nIndex : Nat) (p : List Nat) : List Nat :=
  (List.range lenSecret).map (fun i => eval ((p.drop (i * k)).take k) nIndex)

/-- The share-ID loop "for x := byte(1); x <= n; x++" with byte wraparound:
collects the visited values of x; none when fuel runs out, which for n = 255
models the loop never terminating (x, a byte, is always ≤ 255). -/
def collectXs : Nat → Nat → Nat → Option (List Nat)
  | 0, x, n => if n < x then some [] else none
  | fuel + 1, x, n =>
      if n < x then some []
      else (collectXs fuel ((x + 1) % 256) n).map (fun l => x :: l)

/-- Appending one byte to the share of ID x in the Go map, modelled as an
association list in insertion order. -/
def mapAppend : List (Nat × List Nat) → Nat → Nat → List (Nat × List Nat)
  | [], x, v => [(x, [v])]
  | (key, vs) :: rest, x, v =>
      if key = x then (key, vs ++ [v]) :: rest
      else (key, vs) :: mapAppend rest x v

/-- The per-byte loop of the repository function Split: one generate per
secret byte, then one share byte appended per share ID. -/
def splitBytes (k n : Nat) : List Nat → List (Nat × List Nat) → Rand →
    Option (Except GoError (List (Nat × List Nat)))
  | [], m, _ => some (.ok m)
  | b :: rest, m, s =>
      match generate (k - 1) b s with
      | .error e => some (.error e)
      | .ok (p, s2) =>
          match collectXs 256 1 n with
          | none => none
          | some xs =>
              splitBytes k n rest
                (xs.foldl (fun m2 x => mapAppend m2 x (eval p x)) m) s2

/-- The repository function Split: validation, then per-byte polynomial
generation and evaluation at share IDs 1..n.  The result is the share map as
an association list in insertion order; none models nontermination of the
byte-wrapping share-ID loop (n = 255 with a nonempty secret). -/
def Split (n k : Nat) (secret : List Nat) (s : Rand) :
    Option (Except GoError (List (Nat × List Nat))) :=
  if k ≤ 1 then some (.error .invalidThreshold)
  else if n < k then some (.error .invalidCount)
  else splitBytes k n secret [] s

/-- The points built by Combine for byte position i: one (shareID, v[i]) pair
per map entry, in enumeration order; none if some share is shorter than i+1
(the Go code would index out of range). -/
def pointsAt (m : List (Nat × List Nat)) (i : Nat) : Option (List (Nat × Nat)) :=
  mapO (fun kv => (kv.2[i]?).map (fun y => (kv.1, y))) m

/-- The repository function Combine: the output length is the length of the
share enumerated first (empty for an empty map); each output byte is the
Lagrange interpolation at 0 of the per-position points. -/
def Combine (m : List (Nat × List Nat)) : Option (List Nat) :=
  match m with
  | [] => some []
  | (_, v) :: _ =>
      mapO (fun i => (pointsAt m i).map (fun ps => interpolate ps 0))
        (List.range v.length)

/-- The chunk loop "for i := 0; i < len; i += cpus" of the parallel variants:
list of (start, size) pairs; the final chunk extends to the end of the
input.  With cpus = 0 and len > 0 the loop never advances: none once fuel is
exhausted models nontermination. -/
def posChunks (cpus len : Nat) : Nat → Nat → Option (List (Nat × Nat))
  | 0, i => if i < len then none else some []
  | fuel + 1, i =>
      if i < len then
        (posChunks cpus len fuel (i + cpus)).map
          (fun l => (i, if len ≤ i + cpus then len - i else cpus) :: l)
      else some []

/-- Data produced by one CombineConcur worker for chunk c: interpolation of
the enumeration-ordered points at each position of the chunk.  none if some
share is too short (index panic in the Go code). -/
def combineChunk (m : List (Nat × List Nat)) (c : Nat × Nat) : Option (List Nat) :=
  mapO (fun j => (pointsAt m (c.1 + j)).map (fun ps => interpolate ps 0))
    (List.range c.2)

/-- The repository function CombineParallel: partitions the output positions
into chunks of cpus positions, interpolates each chunk in a worker, and
reassembles by carried start index.  Since the chunks partition the positions
in increasing order, reassembly is the concatenation of the chunk results.
cpus is runtime.NumCPU() + 10 in the source, kept as a parameter here. -/
def CombineParallel (m : List (Nat × List Nat)) (cpus : Nat) : Option (List Nat) :=
  match m with
  | [] => some []
  | (_, v) :: _ =>
      match posChunks cpus v.length v.length 0 with
      | none => none
      | some chunks =>
          (mapO (fun c => combineChunk m c) chunks).map List.flatten

/-- The repository function SplitNewConcur, with live RunParallel workers
serving each channel pair: after validation and batched generation it sends
one Comp per share ID x to sendChan[x-1] and receives the computed share from
resultChan[x-1].  sendLen and resLen are the lengths of the channel slices;
an out-of-range channel index faults (none), and the share-ID loop has the
same byte-wraparound nontermination at n = 255 as Split. -/
def SplitNewConcur (n k : Nat) (secret : List Nat) (s : Rand)
    (sendLen resLen : Nat) : Option (Except GoError (List (Nat × List Nat))) :=
  if k ≤ 1 then some (.error .invalidThreshold)
  else if n < k then some (.error .invalidCount)
  else
    match generateRand k secret s with
    | .error e => some (.error e)
    | .ok (p, _) =>
        match collectXs 256 1 n with
        | none => none
        | some xs =>
            if xs.all (fun x => decide (x - 1 < sendLen)) &&
                xs.all (fun x => decide (x - 1 < resLen)) then
              some (.ok (xs.map (fun x => (x, Compute secret.length k x p))))
            else none

/-- Writing a worker result into a share at consecutive positions starting
at pos (shares[j][i+res.Index] = res.Shares[i][j-1] for one j). -/
def writeSeg : List Nat → Nat → List Nat → List Nat
  | sh, _, [] => sh
  | sh, pos, v :: vs => writeSeg (sh.set pos v) (pos + 1) vs

/-- Updating the share of one ID in the map. -/
def updateAssoc : List (Nat × List Nat) → Nat → (List Nat → List Nat) →
    List (Nat × List Nat)
  | [], _, _ => []
  | (key, vs) :: rest, x, f =>
      if key = x then (key, f vs) :: rest
      else (key, vs) :: updateAssoc rest x f

/-- Reassembly of one SplitParallelLoop result (chunk c of the secret): for
each share ID j the worker bytes eval(polys[c.1+i], j) are written at
positions c.1+i.  Results are folded in dispatch order; the writes of
distinct chunks are disjoint, so arrival order cannot change the outcome. -/
def applyChunk (polys : List (List Nat)) (xs : List Nat)
    (m : List (Nat × List Nat)) (c : Nat × Nat) : List (Nat × List Nat) :=
  xs.foldl (fun m2 j =>
    updateAssoc m2 j (fun sh =>
      writeSeg sh c.1
        ((List.range c.2).map (fun i => eval (polys.getD (c.1 + i) []) j)))) m

/-- The repository function SplitParallel (channel version): validation,
batched generatePolys, dispatch of one chunk of cpus byte positions per step
to send[count] (faulting if the send slice is shorter than the number of
chunks), preallocated shares for IDs 1..n, and index-tagged reassembly. -/
def SplitParallel (n k : Nat) (secret : List Nat) (s : Rand)
    (sendLen cpus : Nat) : Option (Except GoError (List (Nat × List Nat))) :=
  if k ≤ 1 then some (.error .invalidThreshold)
  else if n < k then some (.error .invalidCount)
  else
    match generatePolys (k - 1) secret s with
    | none => none
    | some (.error e) => some (.error e)
    | some (.ok (polys, _)) =>
        match posChunks cpus secret.length secret.length 0 with
        | none => none
        | some chunks =>
            if chunks.length ≤ sendLen then
              match collectXs 256 1 n with
              | none => none
              | some xs =>
                  some (.ok (chunks.foldl (applyChunk polys xs)
                    (xs.map (fun j => (j, List.replicate secret.length 0)))))
            else none

def readN_ok : ∀ (c : Nat) (s : Rand) (buf : List Nat) (s2 : Rand),
    readN c s = .ok (buf, s2) → buf.length = c ∧ ∀ y ∈ buf, y < 256 := by
  intro c
  induction c with
  | zero =>
      intro s buf s2 h
      simp only [readN] at h
      cases h
      simp
  | succ c ih =>
      intro s buf s2 h
      simp only [readN] at h
      cases h1 : read1 s with
      | error e => rw [h1] at h; cases h
      | ok bs2 =>
          obtain ⟨b, sb⟩ := bs2
          rw [h1] at h
          dsimp only at h
          cases h2 : readN c sb with
          | error e => rw [h2] at h; cases h
          | ok bss3 =>
              obtain ⟨bs, s3⟩ := bss3
              rw [h2] at h
              dsimp only at h
              cases h
              have hb : b < 256 := by
                cases s with
                | nil => simp [read1] at h1
                | cons a rest =>
                    cases a with
                    | error e => simp [read1] at h1
                    | ok bb =>
                        simp only [read1, Except.ok.injEq, Prod.mk.injEq] at h1
                        rw [← h1.1]
                        exact Nat.mod_lt _ (by omega)
              have ihh := ih sb bs s2 h2
              constructor
              · simp [ihh.1]
              · intro y hy
                rcases List.mem_cons.mp hy with h | h
                · rw [h]; exact hb
                · exact ihh.2 y h

def fixLeadLoop_ok : ∀ (s : Rand) (v : Nat) (s2 : Rand),
    fixLeadLoop s = .ok (v, s2) → v < 256 ∧ v ≠ 0 := by
  intro s
  induction s with
  | nil => intro v s2 h; simp [fixLeadLoop] at h
  | cons a rest ih =>
      intro v s2 h
      cases a with
      | error e => simp [fixLeadLoop] at h
      | ok b =>
          simp only [fixLeadLoop] at h
          by_cases hb : b % 256 ≠ 0
          · rw [if_pos hb] at h
            cases h
            exact ⟨Nat.mod_lt _ (by omega), hb⟩
          · rw [if_neg hb] at h
            exact ih v s2 h

def fixLead_ok : ∀ (cur : Nat) (s : Rand) (v : Nat) (s2 : Rand), cur < 256 →
    fixLead cur s = .ok (v, s2) → v < 256 ∧ v ≠ 0 := by
  intro cur s v s2 hcur h
  rw [fixLead] at h
  by_cases hc : cur ≠ 0
  · rw [if_pos hc] at h
    cases h
    exact ⟨hcur, hc⟩
  · rw [if_neg hc] at h
    exact fixLeadLoop_ok s v s2 h

/-- Shape of a polynomial produced by generate, for the degrees the split
paths use (1 ≤ degree ≤ 254) and a byte constant term. -/
def generate_ok : ∀ (degree x : Nat) (s : Rand) (p : List Nat) (s2 : Rand),
    1 ≤ degree → degree ≤ 254 → x < 256 →
    generate degree x s = .ok (p, s2) →
    p.length = degree + 1 ∧ p.headD 0 = x ∧ (∀ c ∈ p, c < 256) ∧
      p.getLastD 0 ≠ 0 := by
  intro degree x s p s2 h1 h2 hx h
  rw [generate] at h
  cases hr : readN ((degree + 255) % 256) s with
  | error e => rw [hr] at h; cases h
  | ok bufs2 =>
      obtain ⟨buf, sb⟩ := bufs2
      rw [hr] at h
      dsimp only at h
      cases hf : fixLeadLoop sb with
      | error e => rw [hf] at h; cases h
      | ok leads3 =>
          obtain ⟨lead, s3⟩ := leads3
          rw [hf] at h
          dsimp only at h
          rw [if_neg (by omega)] at h
          cases h
          have hbuf := readN_ok _ s buf sb hr
          have hlead := fixLeadLoop_ok sb lead _ hf
          have hblen : buf.length = degree - 1 := by
            rw [hbuf.1]
            omega
          refine ⟨?_, rfl, ?_, ?_⟩
          · simp [hblen]
            omega
          · intro c hc
            rcases List.mem_cons.mp hc with h | h
            · rw [h]; exact hx
            · rcases List.mem_append.mp h with h | h
              · exact hbuf.2 c h
              · rw [List.mem_singleton.mp h]
                exact hlead.1
          · rw [List.getLastD_eq_getLast?]
            show (x :: (buf ++ [lead])).getLast?.getD 0 ≠ 0
            rw [show x :: (buf ++ [lead]) = (x :: buf) ++ [lead] by simp,
              List.getLast?_concat]
            simp
            exact hlead.2

def eval_cons : ∀ (c : Nat) (t : List Nat) (x : Nat),
    eval (c :: t) x = mul (eval t x) x ^^^ c := by
  intro c t x
  rw [eval, eval, List.reverse_cons, List.foldl_append]
  rfl

def eval_lt : ∀ (p : List Nat) (x : Nat), (∀ c ∈ p, c < 256) →
    eval p x < 256 := by
  intro p
  induction p with
  | nil =>
      intro x _
      show (0 : Nat) < 256
      omega
  | cons c t ih =>
      intro x hc
      rw [eval_cons]
      refine xor_lt256 ?_ (hc c (by simp))
      refine mul_lt _ (ih x ?_) x
      intro y hy
      exact hc y (by simp [hy])

def eval_comm : ∀ (p : List Nat) (x : Nat), (∀ c ∈ p, c < 256) → x < 256 →
    eval p x = (evalG (p.map gfOf) (gfOf x)).val := by
  intro p
  induction p with
  | nil => intro x _ _; simp [eval, evalG]; rfl
  | cons c t ih =>
      intro x hc hx
      have hcc : c < 256 := hc c (by simp)
      have htc : ∀ y ∈ t, y < 256 := fun y hy => hc y (by simp [hy])
      have hev : eval t x < 256 := eval_lt t x htc
      rw [eval_cons, List.map_cons]
      show mul (eval t x) x ^^^ c = (gfOf c + gfOf x * evalG (t.map gfOf) (gfOf x)).val
      rw [GF.val_add, GF.val_mul, gfOf_val c hcc, gfOf_val x hx, ← ih x htc hx]
      rw [mul_comm256 (eval t x) hev x hx, Nat.xor_comm]

def mapO_some : ∀ (l : List α) (f : α → Option β) (g : α → β),
    (∀ a ∈ l, f a = some (g a)) → mapO f l = some (l.map g) := by
  intro l f g
  induction l with
  | nil => intro _; rfl
  | cons a t ih =>
      intro h
      simp only [mapO, List.map_cons]
      rw [h a (by simp), ih (fun b hb => h b (by simp [hb]))]

def range_map_getD : ∀ (l : List Nat),
    (List.range l.length).map (fun i => l.getD i 0) = l := by
  intro l
  apply List.ext_getElem
  · simp
  · intro i h1 h2
    simp only [List.getElem_map, List.getElem_range]
    rw [List.getD_eq_getElem?_getD, List.getElem?_eq_getElem h2]
    rfl

/-- The pure sequence of polynomials Split generates: one generate call per
secret byte, threading the random source. -/
def splitGen (k : Nat) : List Nat → Rand → Except GoError (List (List Nat) × Rand)
  | [], s => .ok ([], s)
  | b :: rest, s =>
      match generate (k - 1) b s with
      | .error e => .error e
      | .ok (p, s2) =>
          match splitGen k rest s2 with
          | .error e => .error e
          | .ok (ps, s3) => .ok (p :: ps, s3)

/-- The canonical share map: IDs 1..n in order, share x holding eval(p, x)
for each generated polynomial p in secret order. -/
def canonMap (n : Nat) (polys : List (List Nat)) : List (Nat × List Nat) :=
  (List.range' 1 n).map (fun x => (x, polys.map (fun p => eval p x)))

def collectXs_eq : ∀ (fuel x n : Nat), n ≤ 254 → n + 1 - x ≤ fuel →
    collectXs fuel x n = some (List.range' x (n + 1 - x)) := by
  intro fuel
  induction fuel with
  | zero =>
      intro x n hn hf
      have hx : n < x := by omega
      simp only [collectXs, if_pos hx]
      rw [show n + 1 - x = 0 by omega]
      rfl
  | succ fuel ih =>
      intro x n hn hf
      by_cases hx : n < x
      · simp only [collectXs, if_pos hx]
        rw [show n + 1 - x = 0 by omega]
        rfl
      · simp only [collectXs, if_neg hx]
        have hmod : (x + 1) % 256 = x + 1 := by
          apply Nat.mod_eq_of_lt
          omega
        rw [hmod, ih (x + 1) n hn (by omega)]
        rw [show n + 1 - x = (n + 1 - (x + 1)) + 1 by omega]
        rfl

def collectXs_255 : ∀ (fuel x : Nat), x < 256 → collectXs fuel x 255 = none := by
  intro fuel
  induction fuel with
  | zero =>
      intro x hx
      simp only [collectXs]
      rw [if_neg (by omega)]
  | succ fuel ih =>
      intro x hx
      simp only [collectXs]
      rw [if_neg (by omega), ih ((x + 1) % 256) (Nat.mod_lt _ (by omega))]
      rfl

def foldAppend_out : ∀ (xs : List Nat) (m : List (Nat × List Nat)) (x0 : Nat)
    (w : List Nat) (g : Nat → Nat), x0 ∉ xs →
    xs.foldl (fun m2 x => mapAppend m2 x (g x)) ((x0, w) :: m) =
      (x0, w) :: xs.foldl (fun m2 x => mapAppend m2 x (g x)) m := by
  intro xs
  induction xs with
  | nil => intro m x0 w g _; rfl
  | cons x t ih =>
      intro m x0 w g hx0
      simp only [List.foldl_cons, mapAppend]
      rw [if_neg (by intro hh; exact hx0 (by simp [hh]))]
      exact ih (mapAppend m x (g x)) x0 w g (by intro hh; exact hx0 (by simp [hh]))

def foldAppend_canon : ∀ (xs : List Nat) (f : Nat → List Nat) (g : Nat → Nat), xs.Nodup →
    xs.foldl (fun m2 x => mapAppend m2 x (g x)) (xs.map (fun x => (x, f x))) =
      xs.map (fun x => (x, f x ++ [g x])) := by
  intro xs
  induction xs with
  | nil => intro f g _; rfl
  | cons x0 t ih =>
      intro f g hnd
      have hx0 : x0 ∉ t := (List.nodup_cons.mp hnd).1
      simp only [List.map_cons, List.foldl_cons, mapAppend, if_true]
      rw [foldAppend_out t _ x0 (f x0 ++ [g x0]) g hx0,
        ih f g (List.nodup_cons.mp hnd).2]

def foldAppend_new : ∀ (xs : List Nat) (g : Nat → Nat), xs.Nodup →
    xs.foldl (fun m2 x => mapAppend m2 x (g x)) [] =
      xs.map (fun x => (x, [g x])) := by
  intro xs
  induction xs with
  | nil => intro g _; rfl
  | cons x0 t ih =>
      intro g hnd
      have hx0 : x0 ∉ t := (List.nodup_cons.mp hnd).1
      simp only [List.map_cons, List.foldl_cons, mapAppend]
      rw [foldAppend_out t [] x0 [g x0] g hx0, ih g (List.nodup_cons.mp hnd).2]

def splitBytes_canon : ∀ (secret : List Nat) (k n : Nat) (s : Rand)
    (polys0 : List (List Nat)), 2 ≤ k → k ≤ n → n ≤ 254 →
    splitBytes k n secret (canonMap n polys0) s =
      match splitGen k secret s with
      | .error e => some (.error e)
      | .ok (polys, _) => some (.ok (canonMap n (polys0 ++ polys))) := by
  intro secret
  induction secret with
  | nil =>
      intro k n s polys0 _ _ _
      simp only [splitBytes, splitGen, List.append_nil]
  | cons b rest ih =>
      intro k n s polys0 hk hkn hn
      simp only [splitBytes, splitGen]
      cases hg : generate (k - 1) b s with
      | error e => rfl
      | ok ps2 =>
          obtain ⟨p, s2⟩ := ps2
          dsimp only
          rw [collectXs_eq 256 1 n hn (by omega)]
          dsimp only
          simp only [Nat.add_sub_cancel]
          have hnd : (List.range' 1 n).Nodup := List.nodup_range' 1 n
          have hfold : (List.range' 1 n).foldl
              (fun m2 x => mapAppend m2 x (eval p x)) (canonMap n polys0) =
              canonMap n (polys0 ++ [p]) := by
            rw [canonMap, canonMap,
              foldAppend_canon (List.range' 1 n)
                (fun x => polys0.map (fun q => eval q x)) (fun x => eval p x) hnd]
            apply List.map_congr_left
            intro x _
            simp
          rw [hfold, ih k n s2 (polys0 ++ [p]) hk hkn hn]
          cases hsg : splitGen k rest s2 with
          | error e => rfl
          | ok pss3 =>
              dsimp only
              rw [List.append_assoc]
              rfl

def Split_char : ∀ (n k : Nat) (secret : List Nat) (s : Rand), 2 ≤ k → k ≤ n →
    n ≤ 254 →
    Split n k secret s =
      match secret, splitGen k secret s with
      | [], _ => some (.ok [])
      | _ :: _, .error e => some (.error e)
      | _ :: _, .ok (polys, _) => some (.ok (canonMap n polys)) := by
  intro n k secret s hk hkn hn
  rw [Split, if_neg (by omega), if_neg (by omega)]
  cases secret with
  | nil => rfl
  | cons b rest =>
      simp only [splitBytes, splitGen]
      cases hg : generate (k - 1) b s with
      | error e => rfl
      | ok ps2 =>
          obtain ⟨p, s2⟩ := ps2
          dsimp only
          rw [collectXs_eq 256 1 n hn (by omega)]
          dsimp only
          simp only [Nat.add_sub_cancel]
          have hnd : (List.range' 1 n).Nodup := List.nodup_range' 1 n
          rw [foldAppend_new (List.range' 1 n) (fun x => eval p x) hnd]
          have hm : (List.range' 1 n).map (fun x => (x, [eval p x])) =
              canonMap n [p] := by
            rw [canonMap]
            apply List.map_congr_left
            intro x _
            simp
          rw [hm, splitBytes_canon rest k n s2 [p] hk hkn hn]
          cases hsg : splitGen k rest s2 with
          | error e => rfl
          | ok pss3 => rfl

def canonMap_mem : ∀ (n : Nat) (polys : List (List Nat)) (q : Nat × List Nat),
    q ∈ canonMap n polys →
    1 ≤ q.1 ∧ q.1 ≤ n ∧ q.2 = polys.map (fun p => eval p q.1) := by
  intro n polys q hq
  rw [canonMap] at hq
  rcases List.mem_map.mp hq with ⟨x, hx, hxq⟩
  rcases List.mem_range'.mp hx with ⟨i, hi, hxi⟩
  subst hxq
  refine ⟨by omega, by omega, rfl⟩

def splitGen_ok : ∀ (secret : List Nat) (k : Nat) (s : Rand)
    (polys : List (List Nat)) (s2 : Rand), 2 ≤ k → k ≤ 255 →
    (∀ b ∈ secret, b < 256) → splitGen k secret s = .ok (polys, s2) →
    polys.length = secret.length ∧ ∀ i < polys.length,
      (polys.getD i []).length = k ∧
      (polys.getD i []).headD 0 = secret.getD i 0 ∧
      (∀ c ∈ polys.getD i [], c < 256) ∧ (polys.getD i []).getLastD 0 ≠ 0 := by
  intro secret
  induction secret with
  | nil =>
      intro k s polys s2 _ _ _ h
      simp only [splitGen] at h
      cases h
      exact ⟨rfl, by intro i hi; simp at hi⟩
  | cons b rest ih =>
      intro k s polys s2 hk hk2 hb h
      simp only [splitGen] at h
      cases hg : generate (k - 1) b s with
      | error e => rw [hg] at h; cases h
      | ok ps2 =>
          obtain ⟨p, sp⟩ := ps2
          rw [hg] at h
          dsimp only at h
          cases hsg : splitGen k rest sp with
          | error e => rw [hsg] at h; cases h
          | ok pss3 =>
              obtain ⟨ps, s3⟩ := pss3
              rw [hsg] at h
              dsimp only at h
              cases h
              have hgen := generate_ok (k - 1) b s p sp (by omega) (by omega)
                (hb b (by simp)) hg
              have ihh := ih k sp ps _ hk hk2
                (fun y hy => hb y (by simp [hy])) hsg
              constructor
              · simp [ihh.1]
              · intro i hi
                cases i with
                | zero =>
                    refine ⟨?_, ?_, ?_, ?_⟩
                    · show p.length = k
                      rw [hgen.1]
                      omega
                    · show p.headD 0 = b
                      exact hgen.2.1
                    · show ∀ c ∈ p, c < 256
                      exact hgen.2.2.1
                    · show p.getLastD 0 ≠ 0
                      exact hgen.2.2.2
                | succ i =>
                    exact ihh.2 i (by simp at hi; omega)

def gfOf_inj : ∀ a < 256, ∀ b < 256, gfOf a = gfOf b → a = b := by
  intro a ha b hb h
  have h2 := congrArg GF.val h
  rwa [gfOf_val a ha, gfOf_val b hb] at h2

def gfOf_zero : gfOf 0 = 0 := by
  apply GF.vinj
  rw [GF.val_zero]
  exact gfOf_val 0 (by omega)

def liftPts_nodup : ∀ (l : List (Nat × Nat)), (∀ q ∈ l, q.1 < 256) →
    (l.map Prod.fst).Nodup → ((l.map gfPair).map Prod.fst).Nodup := by
  intro l hb hnd
  have h1 : (l.map gfPair).map Prod.fst = (l.map Prod.fst).map gfOf := by
    rw [List.map_map, List.map_map]
    apply List.map_congr_left
    intro q _
    rfl
  rw [h1]
  apply List.Nodup.map_on _ hnd
  intro x hx y hy hxy
  rcases List.mem_map.mp hx with ⟨qx, hqx, hqx2⟩
  rcases List.mem_map.mp hy with ⟨qy, hqy, hqy2⟩
  exact gfOf_inj x (hqx2 ▸ hb qx hqx) y (hqy2 ▸ hb qy hqy) hxy

/-- Interpolation at 0 of any list of points lying on the polynomial with
coefficient list pI (all bytes), with pairwise distinct IDs and at least as
many points as coefficients, returns the constant term. -/
def interp_points : ∀ (t1 : List (Nat × Nat)) (pI : List Nat) (k : Nat),
    (∀ q ∈ t1, q.1 < 256) → (t1.map Prod.fst).Nodup →
    (∀ c ∈ pI, c < 256) → pI.length = k → k ≤ t1.length → 1 ≤ k →
    (∀ q ∈ t1, q.2 = eval pI q.1) →
    interpolate t1 0 = pI.headD 0 := by
  intro t1 pI k hxb hnd hcb hplen hlen hk hq2
  have hyb : ∀ q ∈ t1, q.1 < 256 ∧ q.2 < 256 := by
    intro q hq
    refine ⟨hxb q hq, ?_⟩
    rw [hq2 q hq]
    exact eval_lt pI q.1 hcb
  rw [interpolate_comm t1 hyb 0 (by omega), gfOf_zero]
  have hlag := lagrangeG (t1.map gfPair) (pI.map gfOf)
    (liftPts_nodup t1 hxb hnd)
    (by rw [List.length_map, List.length_map]; omega)
    ?_
  · rw [hlag]
    cases pI with
    | nil =>
        simp at hplen
        omega
    | cons c tail =>
        have hclt : c < 256 := hcb c (by simp)
        rw [List.map_cons]
        show (gfOf c).val = c
        exact gfOf_val c hclt
  · intro q hq
    rcases List.mem_map.mp hq with ⟨q1, hq1, hq1e⟩
    subst hq1e
    show evalG (pI.map gfOf) (gfOf q1.1) = gfOf q1.2
    apply GF.vinj
    rw [← eval_comm pI q1.1 hcb (hxb q1 hq1)]
    rw [hq2 q1 hq1, gfOf_val (eval pI q1.1) (eval_lt pI q1.1 hcb)]

def getD_poly : ∀ (polys : List (List Nat)) (i : Nat), i < polys.length →
    ∀ (h2 : i < polys.length), polys.getD i [] = polys.get ⟨i, h2⟩ := by
  intro polys i h h2
  rw [List.getD_eq_getElem?_getD, List.getElem?_eq_getElem h]
  rfl

/-- Combine on any sub-map of a canonical share map with at least as many
shares as the threshold reconstructs the secret. -/
def combine_canon : ∀ (t : List (Nat × List Nat)) (n k : Nat)
    (polys : List (List Nat)) (secret : List Nat),
    (∀ q ∈ t, q ∈ canonMap n polys) → (t.map Prod.fst).Nodup →
    k ≤ t.length → n ≤ 255 → polys.length = secret.length →
    (∀ i < polys.length, (polys.getD i []).length = k ∧
      (polys.getD i []).headD 0 = secret.getD i 0 ∧
      ∀ c ∈ polys.getD i [], c < 256) →
    2 ≤ k →
    Combine t = some secret := by
  intro t n k polys secret hsub hnd hlen hn hplen hpoly hk
  rcases t with _ | ⟨⟨x0, v0⟩, t2⟩
  · simp at hlen
    omega
  · have hq0 := canonMap_mem n polys (x0, v0) (hsub (x0, v0) (by simp))
    have hv0len : v0.length = secret.length := by
      have h2 : ((x0, v0) : Nat × List Nat).2 = polys.map (fun p => eval p x0) :=
        hq0.2.2
      simp only at h2
      rw [h2, List.length_map, hplen]
    show mapO (fun i => (pointsAt ((x0, v0) :: t2) i).map
      (fun ps => interpolate ps 0)) (List.range v0.length) = some secret
    rw [hv0len]
    have hres := mapO_some (List.range secret.length)
      (fun i => (pointsAt ((x0, v0) :: t2) i).map (fun ps => interpolate ps 0))
      (fun i => secret.getD i 0) ?_
    · rw [hres, range_map_getD]
    · intro i hi
      rw [List.mem_range] at hi
      have hilt : i < polys.length := by omega
      have hpi := hpoly i hilt
      have hpts : pointsAt ((x0, v0) :: t2) i =
          some (((x0, v0) :: t2).map
            (fun kv => (kv.1, eval (polys.getD i []) kv.1))) := by
        rw [pointsAt]
        apply mapO_some
        intro kv hkv
        have hkvc := canonMap_mem n polys kv (hsub kv hkv)
        rw [getD_poly polys i hilt hilt, hkvc.2.2, List.getElem?_map,
          List.getElem?_eq_getElem hilt]
        rfl
      show (pointsAt ((x0, v0) :: t2) i).map (fun ps => interpolate ps 0) =
        some (secret.getD i 0)
      rw [hpts]
      show some (interpolate (((x0, v0) :: t2).map
        (fun kv => (kv.1, eval (polys.getD i []) kv.1))) 0) =
        some (secret.getD i 0)
      have hint := interp_points
        (((x0, v0) :: t2).map (fun kv => (kv.1, eval (polys.getD i []) kv.1)))
        (polys.getD i []) k ?_ ?_ hpi.2.2 hpi.1 ?_ (by omega) ?_
      · rw [hint, hpi.2.1]
      · intro q hq
        rcases List.mem_map.mp hq with ⟨kv, hkv, hkve⟩
        subst hkve
        have := canonMap_mem n polys kv (hsub kv hkv)
        show kv.1 < 256
        omega
      · have hmm : (((x0, v0) :: t2).map
            (fun kv => (kv.1, eval (polys.getD i []) kv.1))).map Prod.fst =
            (((x0, v0) :: t2).map Prod.fst) := by
          rw [List.map_map]
          apply List.map_congr_left
          intro kv _
          rfl
        rw [hmm]
        exact hnd
      · rw [List.length_map]
        exact hlen
      · intro q hq
        rcases List.mem_map.mp hq with ⟨kv, hkv, hkve⟩
        subst hkve
        rfl

def splitGen_len : ∀ (secret : List Nat) (k : Nat) (s : Rand)
    (polys : List (List Nat)) (s2 : Rand),
    splitGen k secret s = .ok (polys, s2) → polys.length = secret.length := by
  intro secret
  induction secret with
  | nil =>
      intro k s polys s2 h
      simp only [splitGen] at h
      cases h
      rfl
  | cons b rest ih =>
      intro k s polys s2 h
      simp only [splitGen] at h
      cases hg : generate (k - 1) b s with
      | error e => rw [hg] at h; cases h
      | ok ps2 =>
          obtain ⟨p, sp⟩ := ps2
          rw [hg] at h
          dsimp only at h
          cases hsg : splitGen k rest sp with
          | error e => rw [hsg] at h; cases h
          | ok pss3 =>
              obtain ⟨ps, s3⟩ := pss3
              rw [hsg] at h
              dsimp only at h
              cases h
              simp [ih k sp ps _ hsg]

def canonMap_keys : ∀ (n : Nat) (polys : List (List Nat)),
    (canonMap n polys).map Prod.fst = List.range' 1 n := by
  intro n polys
  rw [canonMap, List.map_map]
  exact List.map_id _


def read1_err_io : ∀ (s : Rand) (e : GoError), read1 s = .error e →
    ∃ c, e = .io c := by
  intro s e h
  cases s with
  | nil => simp only [read1] at h; cases h; exact ⟨0, rfl⟩
  | cons a rest =>
      cases a with
      | error c => simp only [read1] at h; cases h; exact ⟨c, rfl⟩
      | ok b => simp only [read1] at h; cases h

def readN_err_io : ∀ (c : Nat) (s : Rand) (e : GoError), readN c s = .error e →
    ∃ c2, e = .io c2 := by
  intro c
  induction c with
  | zero => intro s e h; simp only [readN] at h; cases h
  | succ c ih =>
      intro s e h
      simp only [readN] at h
      cases h1 : read1 s with
      | error e2 =>
          rw [h1] at h
          cases h
          exact read1_err_io s e h1
      | ok bs2 =>
          obtain ⟨b, sb⟩ := bs2
          rw [h1] at h
          dsimp only at h
          cases h2 : readN c sb with
          | error e2 =>
              rw [h2] at h
              cases h
              exact ih sb e h2
          | ok bss =>
              obtain ⟨bs, s3⟩ := bss
              rw [h2] at h
              dsimp only at h
              cases h

def fixLeadLoop_err_io : ∀ (s : Rand) (e : GoError), fixLeadLoop s = .error e →
    ∃ c, e = .io c := by
  intro s
  induction s with
  | nil => intro e h; simp only [fixLeadLoop] at h; cases h; exact ⟨0, rfl⟩
  | cons a rest ih =>
      intro e h
      cases a with
      | error c => simp only [fixLeadLoop] at h; cases h; exact ⟨c, rfl⟩
      | ok b =>
          simp only [fixLeadLoop] at h
          by_cases hb : b % 256 ≠ 0
          · rw [if_pos hb] at h; cases h
          · rw [if_neg hb] at h
            exact ih e h

def generate_err_io : ∀ (degree x : Nat) (s : Rand) (e : GoError),
    generate degree x s = .error e → ∃ c, e = .io c := by
  intro degree x s e h
  rw [generate] at h
  cases hr : readN ((degree + 255) % 256) s with
  | error e2 =>
      rw [hr] at h
      cases h
      exact readN_err_io _ s e hr
  | ok bufs2 =>
      obtain ⟨buf, sb⟩ := bufs2
      rw [hr] at h
      dsimp only at h
      cases hf : fixLeadLoop sb with
      | error e2 =>
          rw [hf] at h
          cases h
          exact fixLeadLoop_err_io sb e hf
      | ok ls3 =>
          obtain ⟨lead, s3⟩ := ls3
          rw [hf] at h
          dsimp only at h
          by_cases hd : degree = 0
          · rw [if_pos hd] at h; cases h
          · rw [if_neg hd] at h; cases h

def splitBytes_err_io : ∀ (secret : List Nat) (k n : Nat)
    (m : List (Nat × List Nat)) (s : Rand) (e : GoError),
    splitBytes k n secret m s = some (.error e) → ∃ c, e = .io c := by
  intro secret
  induction secret with
  | nil =>
      intro k n m s e h
      simp only [splitBytes] at h
      cases h
  | cons b rest ih =>
      intro k n m s e h
      simp only [splitBytes] at h
      cases hg : generate (k - 1) b s with
      | error e2 =>
          rw [hg] at h
          cases h
          exact generate_err_io (k - 1) b s e hg
      | ok ps2 =>
          obtain ⟨p, sp⟩ := ps2
          rw [hg] at h
          dsimp only at h
          cases hc : collectXs 256 1 n with
          | none => rw [hc] at h; cases h
          | some xs =>
              rw [hc] at h
              dsimp only at h
              exact ih k n _ sp e h


def pow_lt : ∀ x < 256, ∀ n, pow x n < 256 := by
  intro x hx n
  induction n with
  | zero => show (1 : Nat) < 256; omega
  | succ n ih =>
      show mul (pow x n) x < 256
      exact mul_lt _ ih x

def foldSum_lt : ∀ (l : List Nat) (g : Nat → Nat) (x : Nat),
    (∀ i ∈ l, g i < 256) →
    l.foldr (fun i acc => mul (g i) (pow x i) ^^^ acc) 0 < 256 := by
  intro l g x hg
  induction l with
  | nil => show (0 : Nat) < 256; omega
  | cons i t ih =>
      show mul (g i) (pow x i) ^^^ _ < 256
      refine xor_lt256 (mul_lt _ (hg i (by simp)) _) (ih ?_)
      intro j hj
      exact hg j (by simp [hj])

def mulx_fold : ∀ (l : List Nat) (g : Nat → Nat) (x : Nat), x < 256 →
    (∀ i ∈ l, g i < 256) →
    mul (l.foldr (fun i acc => mul (g i) (pow x i) ^^^ acc) 0) x =
      l.foldr (fun i acc => mul (g i) (pow x (i + 1)) ^^^ acc) 0 := by
  intro l g x hx hg
  induction l with
  | nil => exact mulAux_zero_a 8 x
  | cons i t ih =>
      show mul (mul (g i) (pow x i) ^^^ _) x = _
      have hgi : g i < 256 := hg i (by simp)
      have ht : ∀ j ∈ t, g j < 256 := fun j hj => hg j (by simp [hj])
      rw [mul_xor_left (mul (g i) (pow x i)) (mul_lt _ hgi _) _
        (foldSum_lt t g x ht) x]
      rw [ih ht]
      rw [mul_assoc256 (g i) hgi (pow x i) (pow_lt x hx i) x hx]
      rfl

def eval_sum : ∀ (p : List Nat) (x : Nat), (∀ c ∈ p, c < 256) → x < 256 →
    eval p x = (List.range p.length).foldr
      (fun i acc => mul (p.getD i 0) (pow x i) ^^^ acc) 0 := by
  intro p
  induction p with
  | nil => intro x _ _; rfl
  | cons c t ih =>
      intro x hc hx
      have hcc : c < 256 := hc c (by simp)
      have htc : ∀ y ∈ t, y < 256 := fun y hy => hc y (by simp [hy])
      rw [eval_cons, ih x htc hx]
      show _ = (List.range (t.length + 1)).foldr
        (fun i acc => mul ((c :: t).getD i 0) (pow x i) ^^^ acc) 0
      rw [List.range_succ_eq_map, List.foldr_cons, List.foldr_map]
      show _ = mul c (pow x 0) ^^^ (List.range t.length).foldr
        (fun i acc => mul (t.getD i 0) (pow x (i + 1)) ^^^ acc) 0
      rw [← mulx_fold (List.range t.length) (fun i => t.getD i 0) x hx ?_]
      · show mul _ x ^^^ c = mul c (pow x 0) ^^^ mul _ x
        rw [show pow x 0 = 1 from rfl, mul_one_right c hcc, Nat.xor_comm]
      · intro i hi
        show t.getD i 0 < 256
        have hlt : i < t.length := List.mem_range.mp hi
        rw [List.getD_eq_getElem?_getD, List.getElem?_eq_getElem hlt]
        exact htc _ (List.getElem_mem hlt)


def getD_zero_headD : ∀ (l : List Nat) (d : Nat), l.getD 0 d = l.headD d := by
  intro l d
  cases l <;> rfl

def getD_last : ∀ (l : List Nat) (d : Nat),
    l.getD (l.length - 1) d = l.getLastD d := by
  intro l d
  rw [List.getD_eq_getElem?_getD, List.getLastD_eq_getLast?, List.getLast?_eq_getElem?]

def getD_concat : ∀ (l : List Nat) (a d : Nat), (l ++ [a]).getD l.length d = a := by
  intro l a d
  rw [List.getD_append_right l [a] d l.length (Nat.le_refl _)]
  simp

def getLastD_lt : ∀ (l : List Nat), (∀ y ∈ l, y < 256) → l.getLastD 0 < 256 := by
  intro l h
  rw [← getD_last]
  cases l with
  | nil => decide
  | cons a t =>
      have hlt : (a :: t).length - 1 < (a :: t).length := by simp
      rw [List.getD_eq_getElem?_getD, List.getElem?_eq_getElem hlt, Option.getD_some]
      exact h _ (List.getElem_mem hlt)

/-- Shape of one generateRand row b :: mid ++ [lead] with mid of length
k - 2. -/
def row_shape : ∀ (b : Nat) (mid : List Nat) (lead k : Nat), 2 ≤ k →
    mid.length = k - 2 →
    ((b :: mid) ++ [lead]).length = k ∧ ((b :: mid) ++ [lead]).getD 0 0 = b ∧
      ((b :: mid) ++ [lead]).getD (k - 1) 0 = lead := by
  intro b mid lead k hk hm
  have h1 : (b :: mid).length = k - 1 := by
    rw [List.length_cons, hm]; omega
  refine ⟨?_, rfl, ?_⟩
  · rw [List.length_append, h1]
    simp only [List.length_cons, List.length_nil]
    omega
  · rw [show k - 1 = (b :: mid).length from h1.symm]
    exact getD_concat (b :: mid) lead 0

def getD_append_shift : ∀ (l t : List Nat) (k m : Nat), l.length = k →
    (l ++ t).getD (m + k) 0 = t.getD m 0 := by
  intro l t k m hl
  rw [List.getD_append_right l t 0 (m + k) (by omega), hl, Nat.add_sub_cancel]

/-- Row invariants of generateRandRows: the flat output has k bytes per
secret byte, row i starts with secret[i] and ends with a nonzero byte. -/
def generateRandRows_ok : ∀ (secret : List Nat) (k : Nat) (flat : List Nat)
    (s : Rand) (out : List Nat) (s2 : Rand), 2 ≤ k →
    (∀ y ∈ flat, y < 256) → k * secret.length ≤ flat.length →
    generateRandRows k secret flat s = .ok (out, s2) →
    out.length = k * secret.length ∧
      ∀ i, i < secret.length →
        out.getD (i * k) 0 = secret.getD i 0 ∧ out.getD (i * k + k - 1) 0 ≠ 0 := by
  intro secret
  induction secret with
  | nil =>
      intro k flat s out s2 hk hb hlen h
      simp only [generateRandRows] at h
      cases h
      refine ⟨by simp, ?_⟩
      intro i hi
      exact absurd hi (by simp)
  | cons b rest ih =>
      intro k flat s out s2 hk hb hlen h
      rw [List.length_cons, Nat.mul_succ] at hlen
      simp only [generateRandRows] at h
      cases hf : fixLead ((flat.take k).getLastD 0) s with
      | error e => rw [hf] at h; cases h
      | ok ls =>
          obtain ⟨lead, sl⟩ := ls
          rw [hf] at h
          dsimp only at h
          cases hr : generateRandRows k rest (flat.drop k) sl with
          | error e => rw [hr] at h; cases h
          | ok rs =>
              obtain ⟨rows, s3⟩ := rs
              rw [hr] at h
              dsimp only at h
              cases h
              have hmidlen : (((flat.take k).drop 1).dropLast).length = k - 2 := by
                rw [List.length_dropLast, List.length_drop, List.length_take]
                omega
              have hrow := row_shape b (((flat.take k).drop 1).dropLast) lead k hk hmidlen
              have hcur : (flat.take k).getLastD 0 < 256 :=
                getLastD_lt _ (fun y hy => hb y (List.mem_of_mem_take hy))
              have hlead := fixLead_ok _ s lead sl hcur hf
              have ihres := ih k (flat.drop k) sl rows s2 hk
                (fun y hy => hb y (List.mem_of_mem_drop hy))
                (by rw [List.length_drop]; omega) hr
              refine ⟨?_, ?_⟩
              · rw [List.length_append, hrow.1, ihres.1, List.length_cons, Nat.mul_succ]
                omega
              · intro i hi
                cases i with
                | zero =>
                    refine ⟨?_, ?_⟩
                    · simp only [Nat.zero_mul]
                      rw [List.getD_append
                        ((b :: ((flat.take k).drop 1).dropLast) ++ [lead]) rows 0 0
                        (by rw [hrow.1]; omega)]
                      exact hrow.2.1
                    · simp only [Nat.zero_mul, Nat.zero_add]
                      rw [List.getD_append
                        ((b :: ((flat.take k).drop 1).dropLast) ++ [lead]) rows 0 (k - 1)
                        (by rw [hrow.1]; omega), hrow.2.2]
                      exact hlead.2
                | succ j =>
                    have hj : j < rest.length := by
                      rw [List.length_cons] at hi
                      omega
                    have hih := ihres.2 j hj
                    have e1 : (j + 1) * k = j * k + k := by
                      rw [Nat.add_mul, Nat.one_mul]
                    refine ⟨?_, ?_⟩
                    · rw [e1, getD_append_shift _ _ k (j * k) hrow.1, hih.1]
                      rfl
                    · have e2 : (j + 1) * k + k - 1 = (j * k + k - 1) + k := by
                        omega
                      rw [e2, getD_append_shift _ _ k (j * k + k - 1) hrow.1]
                      exact hih.2

def getD_lt256 : ∀ (l : List Nat), (∀ y ∈ l, y < 256) → ∀ i, l.getD i 0 < 256 := by
  intro l h i
  rcases Nat.lt_or_ge i l.length with hi | hi
  · rw [List.getD_eq_getElem?_getD, List.getElem?_eq_getElem hi, Option.getD_some]
    exact h _ (List.getElem_mem hi)
  · rw [List.getD_eq_getElem?_getD, List.getElem?_eq_none (by omega)]
    decide

/-- Totality of Combine on a nonempty map of equal-length shares: the result
interpolates the enumeration-ordered points of each byte position. -/
def combine_total : ∀ (m : List (Nat × List Nat)) (L : Nat), m ≠ [] →
    (∀ kv ∈ m, kv.2.length = L) →
    Combine m = some ((List.range L).map (fun i =>
      interpolate (m.map (fun kv => (kv.1, kv.2.getD i 0))) 0)) := by
  intro m L hne hlen
  have hpts : ∀ i, i < L → pointsAt m i =
      some (m.map (fun kv => (kv.1, kv.2.getD i 0))) := by
    intro i hi
    apply mapO_some
    intro kv hkv
    have hl : i < kv.2.length := by rw [hlen kv hkv]; exact hi
    show (kv.2[i]?).map (fun y => (kv.1, y)) = some (kv.1, kv.2.getD i 0)
    rw [List.getElem?_eq_getElem hl, List.getD_eq_getElem?_getD,
      List.getElem?_eq_getElem hl]
    rfl
  cases m with
  | nil => exact absurd rfl hne
  | cons hd tl =>
      obtain ⟨x, v⟩ := hd
      have hv : v.length = L := hlen (x, v) (by simp)
      show mapO (fun i => (pointsAt ((x, v) :: tl) i).map (fun ps => interpolate ps 0))
          (List.range v.length) = _
      rw [hv]
      apply mapO_some
      intro i hi
      rw [hpts i (List.mem_range.mp hi)]
      rfl

def mapO_append : ∀ (l1 l2 : List α) (f : α → Option β),
    mapO f (l1 ++ l2) =
      (mapO f l1).bind (fun r1 => (mapO f l2).map (fun r2 => r1 ++ r2)) := by
  intro l1
  induction l1 with
  | nil =>
      intro l2 f
      simp only [List.nil_append, mapO]
      cases mapO f l2 <;> rfl
  | cons a t ih =>
      intro l2 f
      simp only [List.cons_append, mapO]
      rw [List.append_eq, ih]
      cases f a <;> cases mapO f t <;> cases mapO f l2 <;> rfl

def mapO_map : ∀ (l : List α) (h : α → β) (f : β → Option γ),
    mapO f (l.map h) = mapO (fun a => f (h a)) l := by
  intro l h f
  induction l with
  | nil => rfl
  | cons a t ih =>
      simp only [List.map_cons, mapO]
      rw [ih]

def mapO_cons_flatten : ∀ (g : α → Option (List β)) (c : α) (cs : List α),
    (mapO g (c :: cs)).map List.flatten =
      (g c).bind (fun b =>
        ((mapO g cs).map List.flatten).map (fun bs => b ++ bs)) := by
  intro g c cs
  simp only [mapO]
  cases g c <;> cases mapO g cs <;> rfl

def mapO_chunk : ∀ (st sz : Nat) (f : Nat → Option β),
    mapO (fun j => f (st + j)) (List.range sz) = mapO f (List.range' st sz) := by
  intro st sz f
  rw [List.range'_eq_map_range, mapO_map]

/-- The chunk loop of the parallel variants, for any chunk size cpus ≥ 1,
terminates and its chunks cover the positions i..len-1 in order: mapping an
arbitrary per-position computation over each chunk and flattening is the
same as mapping it over all positions. -/
def posChunks_cover : ∀ (fuel cpus L i : Nat) (f : Nat → Option β), 1 ≤ cpus →
    L - i ≤ fuel →
    ∃ chunks, posChunks cpus L fuel i = some chunks ∧
      (mapO (fun c => mapO (fun j => f (c.1 + j)) (List.range c.2)) chunks).map
          List.flatten = mapO f (List.range' i (L - i)) := by
  intro fuel
  induction fuel with
  | zero =>
      intro cpus L i f hc hf
      refine ⟨[], ?_, ?_⟩
      · simp only [posChunks]
        rw [if_neg (by omega)]
      · rw [show L - i = 0 from by omega, List.range'_zero]
        rfl
  | succ fuel ih =>
      intro cpus L i f hc hf
      by_cases hiL : i < L
      · obtain ⟨cs, hcs, hcov⟩ := ih cpus L (i + cpus) f hc (by omega)
        refine ⟨(i, if L ≤ i + cpus then L - i else cpus) :: cs, ?_, ?_⟩
        · simp only [posChunks]
          rw [if_pos hiL, hcs]
          rfl
        · rw [mapO_cons_flatten]
          dsimp only
          rw [mapO_chunk i (if L ≤ i + cpus then L - i else cpus) f, hcov]
          by_cases hle : L ≤ i + cpus
          · rw [if_pos hle, show L - (i + cpus) = 0 from by omega,
              List.range'_zero]
            cases hm : mapO f (List.range' i (L - i)) with
            | none => rfl
            | some r =>
                show some (r ++ []) = some r
                rw [List.append_nil]
          · rw [if_neg hle, ← mapO_append]
            have hra := List.range'_append_1 i cpus (L - (i + cpus))
            rw [show L - (i + cpus) + cpus = L - i from by omega] at hra
            rw [hra]
      · refine ⟨[], ?_, ?_⟩
        · simp only [posChunks]
          rw [if_neg hiL]
        · rw [show L - i = 0 from by omega, List.range'_zero]
          rfl

/-- A single Lagrange factor as a function of the other node only. -/
def fctV (x ax z : GF) : GF := (x + z) / (ax + z)

/-- Order-independent form of one interpolation term: the weighted value of a
point q against the set S of all node first coordinates. -/
def symTerm (x : GF) (S : Finset GF) (q : GF × GF) : GF :=
  (∏ z ∈ S.erase q.1, fctV x q.1 z) * q.2

def sum_map_eq_range : ∀ (l : List (GF × GF)) (g : GF × GF → GF),
    (l.map g).sum = ∑ k ∈ Finset.range l.length, g (l.getD k (0, 0)) := by
  intro l g
  induction l with
  | nil => simp
  | cons a t ih =>
      rw [List.map_cons, List.sum_cons, ih, List.length_cons,
        Finset.sum_range_succ']
      simp only [List.getD_cons_succ, List.getD_cons_zero]
      exact add_comm _ _

/-- With pairwise distinct nodes, the indices other than k are mapped by the
node function exactly onto the node set minus node k. -/
def image_erase_nodes : ∀ (pts : List (GF × GF)) (k : Nat),
    (pts.map Prod.fst).Nodup → k < pts.length →
    ((Finset.range pts.length).erase k).image (vOf pts) =
      ((pts.map Prod.fst).toFinset).erase ((pts.getD k (0, 0)).1) := by
  intro pts k hnd hk
  apply Finset.ext
  intro z
  simp only [Finset.mem_image, Finset.mem_erase, Finset.mem_range,
    List.mem_toFinset]
  constructor
  · rintro ⟨m, ⟨hmk, hmlt⟩, rfl⟩
    refine ⟨fun heq => hmk ?_, ?_⟩
    · exact vOf_injOn pts hnd (by rw [Finset.coe_range]; exact Set.mem_Iio.mpr hmlt)
        (by rw [Finset.coe_range]; exact Set.mem_Iio.mpr hk) heq
    · exact List.mem_map.mpr ⟨pts.getD m (0, 0), getD_mem_of_lt pts m hmlt, rfl⟩
  · rintro ⟨hne, hmem⟩
    obtain ⟨q, hq, hq1⟩ := List.mem_map.mp hmem
    subst hq1
    obtain ⟨m, hmlt, hqm⟩ := List.mem_iff_getElem.mp hq
    have hgd : pts.getD m (0, 0) = q := by
      rw [List.getD_eq_getElem?_getD, List.getElem?_eq_getElem hmlt,
        Option.getD_some]
      exact hqm
    refine ⟨m, ⟨?_, hmlt⟩, ?_⟩
    · intro hmk
      apply hne
      rw [← hgd, hmk]
    · show (pts.getD m (0, 0)).1 = q.1
      rw [hgd]

/-- The interpolation value is a sum of terms each depending only on the
point itself and the set of all nodes, hence symmetric in the points. -/
def interpolateG_symm : ∀ (pts : List (GF × GF)) (x : GF),
    (pts.map Prod.fst).Nodup →
    interpolateG pts x = (pts.map (symTerm x (pts.map Prod.fst).toFinset)).sum := by
  intro pts x hnd
  rw [interpolateG_fin, sum_map_eq_range pts (symTerm x (pts.map Prod.fst).toFinset)]
  apply Finset.sum_congr rfl
  intro k hk
  rw [Finset.mem_range] at hk
  show (∏ m ∈ (Finset.range pts.length).erase k,
      fctG x ((pts.getD k (0, 0)).1) (pts.getD m (0, 0))) * (pts.getD k (0, 0)).2 =
    (∏ z ∈ ((pts.map Prod.fst).toFinset).erase ((pts.getD k (0, 0)).1),
      fctV x ((pts.getD k (0, 0)).1) z) * (pts.getD k (0, 0)).2
  congr 1
  have hinj : ∀ a ∈ (Finset.range pts.length).erase k,
      ∀ b ∈ (Finset.range pts.length).erase k, vOf pts a = vOf pts b → a = b := by
    intro a ha b hb heq
    have ha2 := Finset.mem_range.mp (Finset.mem_of_mem_erase ha)
    have hb2 := Finset.mem_range.mp (Finset.mem_of_mem_erase hb)
    exact vOf_injOn pts hnd (by rw [Finset.coe_range]; exact Set.mem_Iio.mpr ha2)
      (by rw [Finset.coe_range]; exact Set.mem_Iio.mpr hb2) heq
  rw [← image_erase_nodes pts k hnd hk, Finset.prod_image hinj]
  apply Finset.prod_congr rfl
  intro m _
  rfl

/-- Permutation invariance of the GF-valued interpolation loop on points with
pairwise distinct nodes. -/
def interpolateG_perm : ∀ (pts1 pts2 : List (GF × GF)) (x : GF),
    pts1.Perm pts2 → (pts1.map Prod.fst).Nodup →
    interpolateG pts1 x = interpolateG pts2 x := by
  intro pts1 pts2 x hp hnd
  have hnd2 : (pts2.map Prod.fst).Nodup := ((hp.map Prod.fst).nodup_iff).mp hnd
  rw [interpolateG_symm pts1 x hnd, interpolateG_symm pts2 x hnd2]
  have hS : (pts1.map Prod.fst).toFinset = (pts2.map Prod.fst).toFinset :=
    List.toFinset_eq_of_perm _ _ (hp.map Prod.fst)
  rw [hS]
  exact (hp.map (symTerm x (pts2.map Prod.fst).toFinset)).sum_eq

/-- Permutation invariance of the repository interpolate on byte points with
pairwise distinct x coordinates. -/
def interpolate_perm : ∀ (pts1 pts2 : List (Nat × Nat)) (x : Nat),
    pts1.Perm pts2 → (pts1.map Prod.fst).Nodup →
    (∀ q ∈ pts1, q.1 < 256 ∧ q.2 < 256) → x < 256 →
    interpolate pts1 x = interpolate pts2 x := by
  intro pts1 pts2 x hp hnd hb hx
  have hb2 : ∀ q ∈ pts2, q.1 < 256 ∧ q.2 < 256 := fun q hq =>
    hb q (hp.mem_iff.mpr hq)
  rw [interpolate_comm pts1 hb x hx, interpolate_comm pts2 hb2 x hx]
  congr 1
  apply interpolateG_perm _ _ _ (hp.map gfPair)
  have hfst : (pts1.map gfPair).map Prod.fst = (pts1.map Prod.fst).map gfOf := by
    rw [List.map_map, List.map_map]
    apply List.map_congr_left
    intro q _
    rfl
  rw [hfst]
  apply List.Nodup.map_on ?_ hnd
  intro a ha b hbm heq
  obtain ⟨qa, hqa, hqa1⟩ := List.mem_map.mp ha
  obtain ⟨qb, hqb, hqb1⟩ := List.mem_map.mp hbm
  exact gfOf_inj a (by rw [← hqa1]; exact (hb qa hqa).1)
    b (by rw [← hqb1]; exact (hb qb hqb).1) heq

def posChunks_zero : ∀ (fuel L i : Nat), i < L → posChunks 0 L fuel i = none := by
  intro fuel
  induction fuel with
  | zero =>
      intro L i hi
      simp only [posChunks]
      rw [if_pos hi]
  | succ fuel ih =>
      intro L i hi
      simp only [posChunks]
      rw [if_pos hi, Nat.add_zero, ih L i hi]
      rfl

/-! Claim theorems. -/

/-- C1: For every secret byte sequence and every valid pair (n, k), combining
any sub-map of at least k of the shares returned by Split yields exactly the
secret, regardless of which subset is chosen and in which order it is
enumerated. -/
theorem C1_split_combine_roundtrip (n k : Nat) (secret : List Nat) (s : Rand)
    (shares t : List (Nat × List Nat))
    (hn : n < 256) (hsec : ∀ b ∈ secret, b < 256)
    (hsplit : Split n k secret s = some (.ok shares))
    (hsub : ∀ q ∈ t, q ∈ shares)
    (hnd : (t.map Prod.fst).Nodup)
    (hlen : k ≤ t.length) :
    Combine t = some secret := by
  have hk2 : 2 ≤ k := by
    by_contra hcon
    rw [Split, if_pos (by omega)] at hsplit
    cases hsplit
  have hkn : k ≤ n := by
    by_contra hcon
    rw [Split, if_neg (by omega), if_pos (by omega)] at hsplit
    cases hsplit
  have hterr : t = [] → False := by
    intro ht
    rw [ht] at hlen
    simp at hlen
    omega
  by_cases h255 : n = 255
  · subst h255
    rcases secret with _ | ⟨b, rest⟩
    · rw [Split, if_neg (by omega), if_neg (by omega)] at hsplit
      simp only [splitBytes] at hsplit
      cases hsplit
      cases ht : t with
      | nil => exact absurd ht hterr
      | cons q t2 =>
          have := hsub q (by rw [ht]; simp)
          simp at this
    · rw [Split, if_neg (by omega), if_neg (by omega)] at hsplit
      simp only [splitBytes] at hsplit
      cases hg : generate (k - 1) b s with
      | error e => rw [hg] at hsplit; cases hsplit
      | ok ps2 =>
          obtain ⟨p, s2⟩ := ps2
          rw [hg] at hsplit
          dsimp only at hsplit
          rw [collectXs_255 256 1 (by omega)] at hsplit
          cases hsplit
  · have hn254 : n ≤ 254 := by omega
    rw [Split_char n k secret s hk2 hkn hn254] at hsplit
    rcases secret with _ | ⟨b, rest⟩
    · dsimp only at hsplit
      cases hsplit
      cases ht : t with
      | nil => exact absurd ht hterr
      | cons q t2 =>
          have := hsub q (by rw [ht]; simp)
          simp at this
    · cases hsg : splitGen k (b :: rest) s with
      | error e =>
          rw [hsg] at hsplit
          cases hsplit
      | ok pss =>
          obtain ⟨polys, s3⟩ := pss
          rw [hsg] at hsplit
          dsimp only at hsplit
          cases hsplit
          have hgen := splitGen_ok (b :: rest) k s polys s3 hk2 (by omega) hsec hsg
          exact combine_canon t n k polys (b :: rest) hsub hnd hlen (by omega)
            (by rw [hgen.1])
            (fun i hi => ⟨(hgen.2 i hi).1, (hgen.2 i hi).2.1,
              (hgen.2 i hi).2.2.1⟩) hk2

/-- Witness for C1 at a concrete input: n = 3, k = 2, secret [5], shares
taken in reversed order. -/
theorem C1_witness :
    Split 3 2 [5] [.ok 7] = some (.ok [(1, [2]), (2, [11]), (3, [12])]) ∧
    Combine [(3, [12]), (1, [2])] = some [5] := by
  constructor
  · rfl
  · exact C1_split_combine_roundtrip 3 2 [5] [.ok 7]
      [(1, [2]), (2, [11]), (3, [12])] [(3, [12]), (1, [2])]
      (by decide) (by decide) (by rfl) (by decide) (by decide) (by decide)

/-- C2 counterexample: for the empty secret Split returns an empty map, not a
map with n keys; at (n, k) = (2, 2) the key list is empty rather than 1..2. -/
theorem C2_counterexample :
    Split 2 2 [] [] = some (.ok []) ∧
    ([] : List (Nat × List Nat)).map Prod.fst ≠ List.range' 1 2 := by
  constructor
  · rfl
  · decide

/-- C2 amended: for a nonempty secret and valid (n, k) with n ≤ 254, a
successful Split returns exactly the contiguous keys 1..n, each share of
length len(secret); for the empty secret the returned map is empty; and for
n = 255 the share-ID loop never terminates (its byte counter never exceeds
255). -/
theorem C2_amended :
    (∀ (n k : Nat) (secret : List Nat) (s : Rand) (m : List (Nat × List Nat)),
      2 ≤ k → k ≤ n → n ≤ 254 → secret ≠ [] →
      Split n k secret s = some (.ok m) →
      m.map Prod.fst = List.range' 1 n ∧ ∀ q ∈ m, q.2.length = secret.length) ∧
    (∀ (n k : Nat) (s : Rand), 2 ≤ k → k ≤ n →
      Split n k [] s = some (.ok [])) ∧
    (∀ (fuel x : Nat), x < 256 → collectXs fuel x 255 = none) := by
  refine ⟨?_, ?_, ?_⟩
  · intro n k secret s m hk hkn hn hne hsplit
    rw [Split_char n k secret s hk hkn hn] at hsplit
    rcases secret with _ | ⟨b, rest⟩
    · exact absurd rfl hne
    · cases hsg : splitGen k (b :: rest) s with
      | error e => rw [hsg] at hsplit; cases hsplit
      | ok pss =>
          obtain ⟨polys, s3⟩ := pss
          rw [hsg] at hsplit
          dsimp only at hsplit
          cases hsplit
          refine ⟨canonMap_keys n polys, ?_⟩
          intro q hq
          have hqc := canonMap_mem n polys q hq
          rw [hqc.2.2, List.length_map]
          exact splitGen_len (b :: rest) k s polys s3 hsg
  · intro n k s hk hkn
    rw [Split, if_neg (by omega), if_neg (by omega)]
    rfl
  · exact collectXs_255

/-- C2 amended witness at a concrete input. -/
theorem C2_amended_witness :
    Split 2 2 [9] [.ok 3] = some (.ok [(1, [10]), (2, [15])]) ∧
    [(1, [10]), (2, [15])].map Prod.fst = List.range' 1 2 ∧
    (∀ q ∈ [((1 : Nat), [(10 : Nat)]), (2, [15])], q.2.length = 1) := by
  refine ⟨by rfl, ?_, ?_⟩
  · exact (C2_amended.1 2 2 [9] [.ok 3] [(1, [10]), (2, [15])]
      (by decide) (by decide) (by decide) (by decide) (by rfl)).1
  · exact (C2_amended.1 2 2 [9] [.ok 3] [(1, [10]), (2, [15])]
      (by decide) (by decide) (by decide) (by decide) (by rfl)).2

/-- C3: Split returns InvalidThreshold exactly when k ≤ 1, and (when k > 1)
InvalidCount exactly when n < k; in either validation-failure case the
result does not depend on the random source (no random generation happens)
and no share map is produced. -/
theorem C3_validation (n k : Nat) (secret : List Nat) (s : Rand) :
    (Split n k secret s = some (.error .invalidThreshold) ↔ k ≤ 1) ∧
    (2 ≤ k → (Split n k secret s = some (.error .invalidCount) ↔ n < k)) ∧
    ((k ≤ 1 ∨ n < k) → ∀ s2 : Rand, Split n k secret s = Split n k secret s2) := by
  refine ⟨⟨?_, ?_⟩, fun hk => ⟨?_, ?_⟩, ?_⟩
  · intro h
    by_contra hcon
    rw [Split, if_neg (by omega)] at h
    by_cases hn : n < k
    · rw [if_pos hn] at h
      cases h
    · rw [if_neg hn] at h
      rcases splitBytes_err_io secret k n [] s _ h with ⟨c, hc⟩
      cases hc
  · intro h
    rw [Split, if_pos h]
  · intro h
    by_contra hcon
    rw [Split, if_neg (by omega), if_neg (by omega)] at h
    rcases splitBytes_err_io secret k n [] s _ h with ⟨c, hc⟩
    cases hc
  · intro h
    rw [Split, if_neg (by omega), if_pos h]
  · intro h s2
    rcases h with h | h
    · rw [Split, if_pos h, Split, if_pos h]
    · by_cases hk : k ≤ 1
      · rw [Split, if_pos hk, Split, if_pos hk]
      · rw [Split, if_neg hk, if_pos h, Split, if_neg hk, if_pos h]

/-- Witness for C3 at concrete inputs: k = 1 is rejected with
InvalidThreshold, and (n, k) = (5, 10) is rejected with InvalidCount. -/
theorem C3_validation_witness :
    Split 5 1 [1] [.ok 3] = some (.error .invalidThreshold) ∧
    Split 5 10 [1] [.ok 3] = some (.error .invalidCount) ∧
    Split 5 10 [1] [.ok 3] = Split 5 10 [1] [] := by
  refine ⟨?_, ?_, ?_⟩
  · exact (C3_validation 5 1 [1] [.ok 3]).1.mpr (by decide)
  · exact ((C3_validation 5 10 [1] [.ok 3]).2.1 (by decide)).mpr (by decide)
  · exact (C3_validation 5 10 [1] [.ok 3]).2.2 (by decide) []

/-- C4: the leading-coefficient loop of generatePolys retries on read errors
instead of propagating them: with an exhausted or persistently failing
reader it loops forever (modelled by none for every fuel bound), and at the
concrete failing input (degree 1, one secret byte, a one-byte stream) the
whole generatePolys call never terminates instead of returning the read
error. -/
theorem C4_generatePolys_retries_on_error :
    (∀ fuel : Nat, rejectRetry fuel [] = none) ∧
    (∀ (fuel : Nat) (e : Nat) (rest : Rand),
      rejectRetry fuel (.error e :: rest) = none) ∧
    generatePolys 1 [0] [.ok 1] = none := by
  refine ⟨?_, ?_, ?_⟩
  · intro fuel
    induction fuel with
    | zero => rfl
    | succ fuel ih => simp only [rejectRetry]; exact ih
  · intro fuel
    induction fuel with
    | zero => intro e rest; rfl
    | succ fuel ih =>
        intro e rest
        simp only [rejectRetry]
        exact ih e rest
  · rfl

/-- C7: eval computes Horner evaluation whose value is the field sum over i
of mul(p[i], x^i). -/
theorem C7_eval_horner (p : List Nat) (x : Nat) (_hp : p ≠ [])
    (hc : ∀ c ∈ p, c < 256) (hx : x < 256) :
    eval p x = (List.range p.length).foldr
      (fun i acc => mul (p.getD i 0) (pow x i) ^^^ acc) 0 :=
  eval_sum p x hc hx

/-- Witness for C7 at a concrete input. -/
theorem C7_eval_horner_witness :
    eval [5, 7, 2] 3 =
      (List.range 3).foldr
        (fun i acc => mul ([5, 7, 2].getD i 0) (pow 3 i) ^^^ acc) 0 :=
  C7_eval_horner [5, 7, 2] 3 (by decide) (by decide) (by decide)

/-- C8: Every polynomial successfully produced by the generators has the
stated shape: generate returns degree+1 coefficients with index 0 the
constant term and a nonzero coefficient at index degree, and generateRand
returns k coefficients per secret byte, row i holding secret[i] at index
i*k and a nonzero byte at index i*k + k - 1 (degrees as used by the split
paths: degree = k - 1 with 2 ≤ k ≤ 255). -/
theorem C8_generator_shape :
    (∀ (degree x : Nat) (s : Rand) (p : List Nat) (s2 : Rand),
      1 ≤ degree → degree ≤ 254 → x < 256 →
      generate degree x s = .ok (p, s2) →
      p.length = degree + 1 ∧ p.getD 0 0 = x ∧ p.getD degree 0 ≠ 0) ∧
    (∀ (k : Nat) (secret : List Nat) (s : Rand) (out : List Nat) (s2 : Rand),
      2 ≤ k →
      generateRand k secret s = .ok (out, s2) →
      out.length = k * secret.length ∧
        ∀ i, i < secret.length →
          out.getD (i * k) 0 = secret.getD i 0 ∧
            out.getD (i * k + k - 1) 0 ≠ 0) := by
  constructor
  · intro degree x s p s2 h1 h2 hx h
    have hg := generate_ok degree x s p s2 h1 h2 hx h
    refine ⟨hg.1, ?_, ?_⟩
    · rw [getD_zero_headD]
      exact hg.2.1
    · have hlen : p.length = degree + 1 := hg.1
      rw [show degree = p.length - 1 by omega, getD_last]
      exact hg.2.2.2
  · intro k secret s out s2 hk h
    rw [generateRand] at h
    cases hr : readN (k * secret.length) s with
    | error e => rw [hr] at h; cases h
    | ok fs =>
        obtain ⟨flat, s3⟩ := fs
        rw [hr] at h
        dsimp only at h
        have hflat := readN_ok _ s flat s3 hr
        exact generateRandRows_ok secret k flat s3 out s2 hk hflat.2
          (le_of_eq hflat.1.symm) h

/-- Witness for C8 at concrete inputs: generate 1 5 with stream [3] yields
[5, 3]; generateRand 2 [7] with stream [9, 4] yields [7, 4]. -/
theorem C8_generator_shape_witness :
    (([5, 3] : List Nat).length = 1 + 1 ∧ ([5, 3] : List Nat).getD 0 0 = 5 ∧
      ([5, 3] : List Nat).getD 1 0 ≠ 0) ∧
    (([7, 4] : List Nat).length = 2 * ([7] : List Nat).length ∧
      ∀ i, i < ([7] : List Nat).length →
        ([7, 4] : List Nat).getD (i * 2) 0 = ([7] : List Nat).getD i 0 ∧
          ([7, 4] : List Nat).getD (i * 2 + 2 - 1) 0 ≠ 0) :=
  ⟨C8_generator_shape.1 1 5 [.ok 3] [5, 3] [] (by decide) (by decide) (by decide)
    (by rfl),
   C8_generator_shape.2 2 [7] [.ok 9, .ok 4] [7, 4] [] (by decide) (by rfl)⟩

/-- C9: Combine's implicit equal-length precondition: on a nonempty map of
equal-length shares it is total (no out-of-range access) and the result has
exactly that length; on the empty map it returns the empty sequence; with
unequal share lengths the result depends on which share the map enumerates
first — here one enumeration order succeeds while the reversed order indexes
a short share out of range. -/
theorem C9_combine_equal_length_precondition :
    (∀ (m : List (Nat × List Nat)) (L : Nat), m ≠ [] →
      (∀ kv ∈ m, kv.2.length = L) →
      ∃ out, Combine m = some out ∧ out.length = L) ∧
    Combine [] = some [] ∧
    Combine [(1, [2]), (2, [11, 99])] = some [5] ∧
    Combine [(2, [11, 99]), (1, [2])] = none := by
  refine ⟨?_, rfl, rfl, rfl⟩
  intro m L hne hlen
  exact ⟨_, combine_total m L hne hlen, by simp⟩

/-- Witness for C9 at a concrete equal-length map. -/
theorem C9_combine_equal_length_precondition_witness :
    ∃ out, Combine [(1, [2]), (2, [11])] = some out ∧ out.length = 1 :=
  C9_combine_equal_length_precondition.1 [(1, [2]), (2, [11])] 1 (by decide)
    (by decide)

/-- C5 counterexample: on the same random byte stream [1, 2], sequential
Split and the batched SplitParallel produce different share maps for the
same valid input, because generatePolys consumes the stream in a different
order than generate (all middle coefficients upfront, then the leading
bytes). -/
theorem C5_counterexample :
    Split 2 2 [0] [.ok 1, .ok 2] = some (.ok [(1, [1]), (2, [2])]) ∧
    SplitParallel 2 2 [0] [.ok 1, .ok 2] 10 1 = some (.ok [(1, [2]), (2, [4])]) ∧
    Split 2 2 [0] [.ok 1, .ok 2] ≠ SplitParallel 2 2 [0] [.ok 1, .ok 2] 10 1 := by
  refine ⟨rfl, rfl, fun h => ?_⟩
  rw [show Split 2 2 [0] [.ok 1, .ok 2] = some (.ok [(1, [1]), (2, [2])]) from rfl,
    show SplitParallel 2 2 [0] [.ok 1, .ok 2] 10 1 =
      some (.ok [(1, [2]), (2, [4])]) from rfl] at h
  simp at h

/-- C5 amended: the parallel combine is observationally equal to the
sequential one — CombineParallel equals Combine on every share map, for
every chunk size cpus ≥ 1 (the source always uses runtime.NumCPU() + 10). -/
theorem C5_parallel_combine_equal (m : List (Nat × List Nat)) (cpus : Nat)
    (h : 1 ≤ cpus) : CombineParallel m cpus = Combine m := by
  cases m with
  | nil => rfl
  | cons hd tl =>
      obtain ⟨x, v⟩ := hd
      obtain ⟨chunks, hcs, hcov⟩ :=
        posChunks_cover v.length cpus v.length 0
          (fun i => (pointsAt ((x, v) :: tl) i).map (fun ps => interpolate ps 0))
          h (by omega)
      show (match posChunks cpus v.length v.length 0 with
        | none => none
        | some chunks =>
            (mapO (fun c => combineChunk ((x, v) :: tl) c) chunks).map
              List.flatten) =
        mapO (fun i => (pointsAt ((x, v) :: tl) i).map (fun ps => interpolate ps 0))
          (List.range v.length)
      rw [hcs]
      have hfin : mapO (fun i => (pointsAt ((x, v) :: tl) i).map
            (fun ps => interpolate ps 0)) (List.range' 0 (v.length - 0)) =
          mapO (fun i => (pointsAt ((x, v) :: tl) i).map
            (fun ps => interpolate ps 0)) (List.range v.length) := by
        rw [Nat.sub_zero, ← List.range_eq_range']
      exact hcov.trans hfin

/-- Witness for the amended C5 at a concrete map and chunk size. -/
theorem C5_parallel_combine_equal_witness :
    CombineParallel [(1, [2]), (2, [11])] 7 = Combine [(1, [2]), (2, [11])] :=
  C5_parallel_combine_equal [(1, [2]), (2, [11])] 7 (by decide)

/-- C6: Reconstruction is deterministic and order-independent: interpolate
returns the same value on any permutation of a list of byte points with
pairwise distinct share IDs, and Combine returns the same result on any
permutation of a map of equal-length shares with distinct IDs. -/
theorem C6_reconstruction_order_independent :
    (∀ (pts1 pts2 : List (Nat × Nat)) (x : Nat), pts1.Perm pts2 →
      (pts1.map Prod.fst).Nodup → (∀ q ∈ pts1, q.1 < 256 ∧ q.2 < 256) →
      x < 256 → interpolate pts1 x = interpolate pts2 x) ∧
    (∀ (m1 m2 : List (Nat × List Nat)) (L : Nat), m1.Perm m2 →
      (m1.map Prod.fst).Nodup → (∀ kv ∈ m1, kv.2.length = L) →
      (∀ kv ∈ m1, kv.1 < 256 ∧ ∀ y ∈ kv.2, y < 256) →
      Combine m1 = Combine m2) := by
  constructor
  · exact interpolate_perm
  · intro m1 m2 L hp hnd hlen hb
    cases m1 with
    | nil =>
        rw [List.perm_nil.mp hp.symm]
    | cons hd tl =>
        have hne1 : hd :: tl ≠ ([] : List (Nat × List Nat)) := by simp
        have hne2 : m2 ≠ [] := by
          intro h2
          rw [h2] at hp
          exact hne1 (List.perm_nil.mp hp)
        have hlen2 : ∀ kv ∈ m2, kv.2.length = L := fun kv hkv =>
          hlen kv (hp.mem_iff.mpr hkv)
        rw [combine_total (hd :: tl) L hne1 hlen, combine_total m2 L hne2 hlen2]
        congr 1
        apply List.map_congr_left
        intro i _
        apply interpolate_perm _ _ 0 (hp.map _)
        · have hfst : ((hd :: tl).map (fun kv => (kv.1, kv.2.getD i 0))).map Prod.fst
              = (hd :: tl).map Prod.fst := by
            rw [List.map_map]
            apply List.map_congr_left
            intro kv _
            rfl
          rw [hfst]
          exact hnd
        · intro q hq
          obtain ⟨kv, hkv, hq1⟩ := List.mem_map.mp hq
          rw [← hq1]
          exact ⟨(hb kv hkv).1, getD_lt256 kv.2 (hb kv hkv).2 i⟩
        · omega

/-- Witness for C6 on a concrete transposition. -/
theorem C6_reconstruction_order_independent_witness :
    interpolate [(1, 2), (2, 11)] 0 = interpolate [(2, 11), (1, 2)] 0 ∧
    Combine [(1, [2]), (2, [11])] = Combine [(2, [11]), (1, [2])] :=
  ⟨C6_reconstruction_order_independent.1 [(1, 2), (2, 11)] [(2, 11), (1, 2)] 0
      (List.Perm.swap (2, 11) (1, 2) []) (by decide) (by decide) (by decide),
   C6_reconstruction_order_independent.2 [(1, [2]), (2, [11])]
      [(2, [11]), (1, [2])] 1 (List.Perm.swap (2, [11]) (1, [2]) [])
      (by decide) (by decide) (by decide)⟩

/-- C10: channel-capacity preconditions of the channel-based entry points:
with live workers, SplitNewConcur succeeds exactly when both channel slices
have length at least n, and faults (none) when either is shorter;
SplitParallel never terminates with cpus = 0 on a nonempty secret, and
faults when the send slice is shorter than the number of chunks. -/
theorem C10_channel_capacity :
    (∀ (n k : Nat) (secret : List Nat) (s : Rand) (sendLen resLen : Nat)
      (p : List Nat) (s2 : Rand), 2 ≤ k → k ≤ n → n ≤ 254 →
      generateRand k secret s = .ok (p, s2) →
      (n ≤ sendLen → n ≤ resLen →
        SplitNewConcur n k secret s sendLen resLen =
          some (.ok ((List.range' 1 n).map
            (fun x => (x, Compute secret.length k x p))))) ∧
      ((sendLen < n ∨ resLen < n) →
        SplitNewConcur n k secret s sendLen resLen = none)) ∧
    (∀ (n k : Nat) (secret : List Nat) (s : Rand) (sendLen : Nat)
      (polys : List (List Nat)) (s2 : Rand), 2 ≤ k → k ≤ n →
      generatePolys (k - 1) secret s = some (.ok (polys, s2)) →
      0 < secret.length →
      SplitParallel n k secret s sendLen 0 = none) ∧
    (∀ (n k : Nat) (secret : List Nat) (s : Rand) (sendLen cpus : Nat)
      (polys : List (List Nat)) (s2 : Rand) (chunks : List (Nat × Nat)),
      2 ≤ k → k ≤ n →
      generatePolys (k - 1) secret s = some (.ok (polys, s2)) →
      posChunks cpus secret.length secret.length 0 = some chunks →
      sendLen < chunks.length →
      SplitParallel n k secret s sendLen cpus = none) := by
  refine ⟨?_, ?_, ?_⟩
  · intro n k secret s sendLen resLen p s2 hk hkn hn hgen
    have hxs : collectXs 256 1 n = some (List.range' 1 n) := by
      have h := collectXs_eq 256 1 n hn (by omega)
      rw [Nat.add_sub_cancel] at h
      exact h
    have hbase : SplitNewConcur n k secret s sendLen resLen =
        (if (List.range' 1 n).all (fun x => decide (x - 1 < sendLen)) &&
            (List.range' 1 n).all (fun x => decide (x - 1 < resLen)) then
          some (.ok ((List.range' 1 n).map
            (fun x => (x, Compute secret.length k x p))))
        else none) := by
      simp only [SplitNewConcur]
      rw [if_neg (by omega), if_neg (by omega), hgen]
      dsimp only
      rw [hxs]
    constructor
    · intro hs hr
      have hA : (List.range' 1 n).all (fun x => decide (x - 1 < sendLen)) = true := by
        rw [List.all_eq_true]
        intro x hx
        have hm := List.mem_range'_1.mp hx
        simp only [decide_eq_true_eq]
        omega
      have hB : (List.range' 1 n).all (fun x => decide (x - 1 < resLen)) = true := by
        rw [List.all_eq_true]
        intro x hx
        have hm := List.mem_range'_1.mp hx
        simp only [decide_eq_true_eq]
        omega
      rw [hbase, if_pos (by rw [Bool.and_eq_true]; exact ⟨hA, hB⟩)]
    · intro hor
      rw [hbase, if_neg ?_]
      intro hcond
      rw [Bool.and_eq_true, List.all_eq_true, List.all_eq_true] at hcond
      have hmem : n ∈ List.range' 1 n := List.mem_range'_1.mpr ⟨by omega, by omega⟩
      rcases hor with h | h
      · have hc := hcond.1 n hmem
        simp only [decide_eq_true_eq] at hc
        omega
      · have hc := hcond.2 n hmem
        simp only [decide_eq_true_eq] at hc
        omega
  · intro n k secret s sendLen polys s2 hk hkn hpol hlen
    simp only [SplitParallel]
    rw [if_neg (by omega), if_neg (by omega), hpol]
    dsimp only
    rw [posChunks_zero secret.length secret.length 0 hlen]
  · intro n k secret s sendLen cpus polys s2 chunks hk hkn hpol hchunks hsend
    simp only [SplitParallel]
    rw [if_neg (by omega), if_neg (by omega), hpol]
    dsimp only
    rw [hchunks]
    dsimp only
    rw [if_neg (by omega)]

/-- Witness for C10 at concrete inputs. -/
theorem C10_channel_capacity_witness :
    SplitNewConcur 2 2 [0] [.ok 1, .ok 2] 2 2 =
      some (.ok ((List.range' 1 2).map (fun x => (x, Compute 1 2 x [0, 2])))) ∧
    SplitNewConcur 2 2 [0] [.ok 1, .ok 2] 1 2 = none ∧
    SplitParallel 2 2 [0] [.ok 1, .ok 2] 10 0 = none ∧
    SplitParallel 2 2 [0] [.ok 1, .ok 2] 0 1 = none :=
  ⟨(C10_channel_capacity.1 2 2 [0] [.ok 1, .ok 2] 2 2 [0, 2] []
      (by decide) (by decide) (by decide) (by rfl)).1 (by decide) (by decide),
   (C10_channel_capacity.1 2 2 [0] [.ok 1, .ok 2] 1 2 [0, 2] []
      (by decide) (by decide) (by decide) (by rfl)).2 (Or.inl (by decide)),
   C10_channel_capacity.2.1 2 2 [0] [.ok 1, .ok 2] 10 [[0, 2]] []
      (by decide) (by decide) (by rfl) (by decide),
   C10_channel_capacity.2.2 2 2 [0] [.ok 1, .ok 2] 0 1 [[0, 2]] [] [(0, 1)]
      (by decide) (by decide) (by rfl) (by rfl) (by decide)⟩

end SSS
